import Mathlib

/-!
Verification of the analysis/search pipeline of the `world-opinion`
browser extension.

The JavaScript sources are shallowly embedded: JS strings are Lean
`String`s (UTF-16 corner cases are noted where they matter), JS numbers
are modelled as exact rationals (IEEE-754 rounding is abstracted away;
no theorem below depends on float rounding), fallible operations return
`Option` or `Except`, and the mutable `AppState.fallbackUsed` flags are
threaded as explicit state.  Network and on-device-model effects are
passed in as explicit outcome parameters.
-/

/-- Character class of the JS regex `\s` (also the set removed by
`String.prototype.trim`): ASCII whitespace, NBSP, and the Unicode
space separators, line separators and BOM. -/
def isJsWs (c : Char) : Bool :=
  decide (c.toNat ∈ ([0x20, 0x09, 0x0a, 0x0d, 0x0b, 0x0c, 0xa0, 0x1680,
      0x2028, 0x2029, 0x202f, 0x205f, 0x3000, 0xfeff] : List Nat)) ||
  decide (0x2000 ≤ c.toNat ∧ c.toNat ≤ 0x200a)

/-- Whitespace accepted between tokens by `JSON.parse` (strictly smaller
than the JS regex class `\s`). -/
def isJsonWs (c : Char) : Bool :=
  decide (c.toNat ∈ ([0x20, 0x09, 0x0a, 0x0d] : List Nat))

/-- JSON values, the results of `JSON.parse`.  Object member order is
the JS property order: first occurrence of a key fixes its position,
a duplicate key overwrites the value in place. -/
inductive Json where
  | null : Json
  | bool (b : Bool) : Json
  | num (q : ℚ) : Json
  | str (s : String) : Json
  | arr (xs : List Json) : Json
  | obj (kvs : List (String × Json)) : Json

/-- Does a parsed JSON object have a member with the given key? -/
def Json.hasKey : Json → String → Bool
  | .obj kvs, k => kvs.any (fun p => p.1 == k)
  | _, _ => false

/-- Hexadecimal digit value, for `\uXXXX` escapes. -/
def hexVal (c : Char) : Option Nat :=
  if '0' ≤ c ∧ c ≤ '9' then some (c.toNat - 48)
  else if 'a' ≤ c ∧ c ≤ 'f' then some (c.toNat - 87)
  else if 'A' ≤ c ∧ c ≤ 'F' then some (c.toNat - 55)
  else none

/-- Value of a four-hex-digit escape. -/
def hex4 (a b c d : Char) : Option Nat :=
  match hexVal a, hexVal b, hexVal c, hexVal d with
  | some x, some y, some z, some w => some (((x * 16 + y) * 16 + z) * 16 + w)
  | _, _, _, _ => none

/-- Single-character JSON string escapes. -/
def escChar : Char → Option Char
  | '"' => some '"'
  | '\\' => some '\\'
  | '/' => some '/'
  | 'b' => some (Char.ofNat 0x08)
  | 'f' => some (Char.ofNat 0x0c)
  | 'n' => some '\n'
  | 'r' => some '\r'
  | 't' => some '\t'
  | _ => none

/-- Body of a JSON string literal (after the opening quote): returns the
decoded characters and the input remaining after the closing quote.
`\uXXXX` surrogate pairs are combined into one code point; a lone
surrogate (not representable in a Lean `Char`) is decoded as U+FFFD. -/
def pStringAux : Nat → List Char → Option (List Char × List Char)
  | 0, _ => none
  | _, [] => none
  | fuel + 1, c :: rest =>
    if c == '"' then some ([], rest)
    else if c == '\\' then
      match rest with
      | [] => none
      | e :: rest2 =>
        if e == 'u' then
          match rest2 with
          | h1 :: h2 :: h3 :: h4 :: rest3 =>
            match hex4 h1 h2 h3 h4 with
            | none => none
            | some n =>
              if 0xd800 ≤ n ∧ n ≤ 0xdbff then
                match rest3 with
                | '\\' :: 'u' :: l1 :: l2 :: l3 :: l4 :: rest4 =>
                  match hex4 l1 l2 l3 l4 with
                  | none => none
                  | some m =>
                    if 0xdc00 ≤ m ∧ m ≤ 0xdfff then
                      (pStringAux fuel rest4).map (fun p =>
                        (Char.ofNat (0x10000 + (n - 0xd800) * 0x400 + (m - 0xdc00)) :: p.1, p.2))
                    else
                      (pStringAux fuel rest3).map (fun p => (Char.ofNat 0xfffd :: p.1, p.2))
                | _ => (pStringAux fuel rest3).map (fun p => (Char.ofNat 0xfffd :: p.1, p.2))
              else if 0xdc00 ≤ n ∧ n ≤ 0xdfff then
                (pStringAux fuel rest3).map (fun p => (Char.ofNat 0xfffd :: p.1, p.2))
              else
                (pStringAux fuel rest3).map (fun p => (Char.ofNat n :: p.1, p.2))
          | _ => none
        else
          match escChar e with
          | some ec => (pStringAux fuel rest2).map (fun p => (ec :: p.1, p.2))
          | none => none
    else if c.toNat < 0x20 then none
    else (pStringAux fuel rest).map (fun p => (c :: p.1, p.2))

/-- JSON string body, with fuel large enough for the input. -/
def pString (cs : List Char) : Option (List Char × List Char) :=
  pStringAux (cs.length + 1) cs

/-- Numeric value of a list of decimal digits. -/
def digitsToNat (ds : List Char) : Nat :=
  ds.foldl (fun a c => a * 10 + (c.toNat - 48)) 0

/-- Take a leading sign off a numeric literal; a plus sign is consumed
only where the grammar allows one. -/
def signSplit (cs : List Char) (allowPlus : Bool) : Bool × List Char :=
  match cs with
  | '-' :: r => (true, r)
  | '+' :: r => if allowPlus then (false, r) else (false, '+' :: r)
  | _ => (false, cs)

/-- JSON number literal: optional minus, integer part without leading
zeros, optional fraction, optional exponent.  The exact rational value
is returned (float rounding abstracted away). -/
def pNum (cs : List Char) : Option (ℚ × List Char) :=
  let signAndRest := signSplit cs false
  let neg := signAndRest.1
  let cs1 := signAndRest.2
  match cs1 with
  | [] => none
  | d :: _ =>
    if !d.isDigit then none
    else
      let ipRun := if d == '0' then ['0'] else cs1.takeWhile Char.isDigit
      let ip : ℚ := (digitsToNat ipRun : ℚ)
      let cs2 := cs1.drop ipRun.length
      let fracStep : Option (ℚ × List Char) :=
        match cs2 with
        | '.' :: cs3 =>
          let fr := cs3.takeWhile Char.isDigit
          if fr.isEmpty then none
          else some (ip + (digitsToNat fr : ℚ) / ((10 : ℚ) ^ fr.length), cs3.drop fr.length)
        | _ => some (ip, cs2)
      match fracStep with
      | none => none
      | some (base, cs4) =>
        let expStep : Option (ℚ × List Char) :=
          match cs4 with
          | e :: cs5 =>
            if e == 'e' || e == 'E' then
              let signAndRest2 := signSplit cs5 true
              let ds := signAndRest2.2.takeWhile Char.isDigit
              if ds.isEmpty then none
              else
                let ex : ℤ := if signAndRest2.1 then -(digitsToNat ds : ℤ) else (digitsToNat ds : ℤ)
                some (base * (10 : ℚ) ^ ex, signAndRest2.2.drop ds.length)
            else some (base, cs4)
          | [] => some (base, cs4)
        match expStep with
        | none => none
        | some (v, cs6) => some (if neg then -v else v, cs6)

/-- Insert a member into a JSON object under construction: a duplicate
key keeps its first position but takes the later value, as in JS. -/
def objInsert (kvs : List (String × Json)) (k : String) (v : Json) : List (String × Json) :=
  if kvs.any (fun p => p.1 == k) then kvs.map (fun p => if p.1 == k then (p.1, v) else p)
  else kvs ++ [(k, v)]

mutual

/-- JSON value parser (fuel-indexed recursive descent). -/
def pVal : Nat → List Char → Option (Json × List Char)
  | 0, _ => none
  | fuel + 1, cs0 =>
    let cs := cs0.dropWhile isJsonWs
    match cs with
    | [] => none
    | c :: rest =>
      if c == 'n' then
        match cs with
        | 'n' :: 'u' :: 'l' :: 'l' :: r => some (.null, r)
        | _ => none
      else if c == 't' then
        match cs with
        | 't' :: 'r' :: 'u' :: 'e' :: r => some (.bool true, r)
        | _ => none
      else if c == 'f' then
        match cs with
        | 'f' :: 'a' :: 'l' :: 's' :: 'e' :: r => some (.bool false, r)
        | _ => none
      else if c == '"' then
        (pString rest).map (fun p => (.str (String.mk p.1), p.2))
      else if c == '[' then
        match rest.dropWhile isJsonWs with
        | ']' :: r2 => some (.arr [], r2)
        | _ => pArrElems fuel rest []
      else if c == '{' then
        match rest.dropWhile isJsonWs with
        | '}' :: r2 => some (.obj [], r2)
        | _ => pObjMembers fuel rest []
      else if c == '-' || c.isDigit then
        (pNum cs).map (fun p => (.num p.1, p.2))
      else none

/-- Comma-separated array elements, ending at `]`. -/
def pArrElems : Nat → List Char → List Json → Option (Json × List Char)
  | 0, _, _ => none
  | fuel + 1, cs, acc =>
    match pVal fuel cs with
    | none => none
    | some (v, r) =>
      match r.dropWhile isJsonWs with
      | ',' :: r2 => pArrElems fuel r2 (acc ++ [v])
      | ']' :: r2 => some (.arr (acc ++ [v]), r2)
      | _ => none

/-- Comma-separated `"key": value` object members, ending at `}`. -/
def pObjMembers : Nat → List Char → List (String × Json) → Option (Json × List Char)
  | 0, _, _ => none
  | fuel + 1, cs, acc =>
    match cs.dropWhile isJsonWs with
    | '"' :: r =>
      match pString r with
      | none => none
      | some (key, r2) =>
        match r2.dropWhile isJsonWs with
        | ':' :: r4 =>
          match pVal fuel r4 with
          | none => none
          | some (v, r5) =>
            match r5.dropWhile isJsonWs with
            | ',' :: r7 => pObjMembers fuel r7 (objInsert acc (String.mk key) v)
            | '}' :: r7 => some (.obj (objInsert acc (String.mk key) v), r7)
            | _ => none
        | _ => none
    | _ => none

end

/-- `JSON.parse`: parse a complete JSON text (leading and trailing
whitespace allowed), returning `none` where JS throws a SyntaxError. -/
def jsonParse (s : String) : Option Json :=
  let cs := s.toList
  match pVal (2 * cs.length + 8) cs with
  | some (v, rest) => if (rest.dropWhile isJsonWs).isEmpty then some v else none
  | none => none

/-- ASCII lowercasing, as used for the case-insensitive fence regex and
for `String.prototype.toLowerCase` (non-ASCII letters are non-word
characters for the tokenizer either way, so ASCII lowering suffices). -/
def asciiLower (c : Char) : Char :=
  if 'A' ≤ c ∧ c ≤ 'Z' then Char.ofNat (c.toNat + 32) else c

/-- The leftmost match of the regex `/```\s*$/`: returns the characters
before a backtick fence that is followed only by whitespace, or `none`
when no such fence exists. -/
def findClosingFence : List Char → Option (List Char)
  | [] => none
  | c :: rest =>
    if c == '`' && rest.take 2 == ['`', '`'] && (rest.drop 2).all isJsWs then
      some []
    else
      (findClosingFence rest).map (fun pre => c :: pre)

/-- `String.prototype.trim`. -/
def jsTrim (cs : List Char) : List Char :=
  ((cs.dropWhile isJsWs).reverse.dropWhile isJsWs).reverse

/-- `Utils.cleanMarkdownCodeFences` (src/js/utils.js:78-83):
`text.replace(/^```json\s*/i, '').replace(/```\s*$/, '').trim()`. -/
def cleanMarkdownCodeFences (text : String) : String :=
  let cs := text.toList
  let cs1 :=
    if (cs.take 7).map asciiLower == "```json".toList then
      (cs.drop 7).dropWhile isJsWs
    else cs
  let cs2 :=
    match findClosingFence cs1 with
    | some pre => pre
    | none => cs1
  String.mk (jsTrim cs2)

/-- The leftmost match of the greedy regex `/\{[\s\S]*\}/`: the span
from the first opening brace to the last closing brace after it. -/
def braceMatchL (cs : List Char) : Option (List Char) :=
  let fromBrace := cs.dropWhile (fun c => !(c == '{'))
  match fromBrace with
  | [] => none
  | _ :: _ =>
    let rev := fromBrace.reverse.dropWhile (fun c => !(c == '}'))
    match rev with
    | [] => none
    | _ :: _ => some rev.reverse

/-- String form of `braceMatchL`. -/
def braceMatch (s : String) : Option String :=
  (braceMatchL s.toList).map String.mk

/-- Attempt of the regex `/"summary"\s*:\s*"([^"]+)/` at the head of the
input: the capture group, i.e. the nonempty run of non-quote characters
after `"summary"`, optional whitespace, a colon, optional whitespace
and an opening quote. -/
def summaryCaptureAt (cs : List Char) : Option (List Char) :=
  if cs.take 9 == "\"summary\"".toList then
    match (cs.drop 9).dropWhile isJsWs with
    | ':' :: r2 =>
      match r2.dropWhile isJsWs with
      | '"' :: r4 =>
        let cap := r4.takeWhile (fun c => !(c == '"'))
        if cap.isEmpty then none else some cap
      | _ => none
    | _ => none
  else none

/-- Leftmost match of `/"summary"\s*:\s*"([^"]+)/` over the input. -/
def summaryCaptureL : List Char → Option (List Char)
  | [] => none
  | c :: rest =>
    match summaryCaptureAt (c :: rest) with
    | some cap => some cap
    | none => summaryCaptureL rest

/-- String form of `summaryCaptureL`. -/
def summaryCapture (s : String) : Option String :=
  (summaryCaptureL s.toList).map String.mk

/-- `Utils.parseAnalysisResponse` (src/js/utils.js:91-110): strip code
fences; parse the first `{...}` greedy brace match as JSON and return
the parsed value verbatim on success; otherwise recover a summary via
the `"summary"` regex, defaulting to the canned text, with the fallback
title as the sole keyword. -/
def parseAnalysisResponse (text fallbackTitle : String) : Json :=
  let cleanedText := cleanMarkdownCodeFences text
  let fallback : Json :=
    Json.obj [("summary", Json.str
        (match summaryCapture cleanedText with
         | some cap => cap
         | none => "Unable to analyze this page.")),
      ("keywords", Json.arr [Json.str fallbackTitle])]
  match braceMatch cleanedText with
  | some sub =>
    match jsonParse sub with
    | some v => v
    | none => fallback
  | none => fallback

/-- Character class `[\d,\s]` of the filter-indices regex. -/
def isDigitCommaWs (c : Char) : Bool :=
  c.isDigit || c == ',' || isJsWs c

/-- Leftmost match of the regex `/\[[\d,\s]*\]/`: an opening bracket,
a run of digits, commas and whitespace, and a closing bracket. -/
def bracketMatchL : List Char → Option (List Char)
  | [] => none
  | c :: rest =>
    if c == '[' then
      match rest.dropWhile isDigitCommaWs with
      | ']' :: _ => some (('[' :: rest.takeWhile isDigitCommaWs) ++ [']'])
      | _ => bracketMatchL rest
    else bracketMatchL rest

/-- Elements of a digits-only JSON array (`JSON.parse` restricted to
texts matched by `/\[[\d,\s]*\]/`): numbers here are unsigned integers
without leading zeros, separated by commas with JSON whitespace.  A
whitespace character of `\s` outside JSON's whitespace set makes the
parse fail, exactly as in `JSON.parse`. -/
def pDigitElems : Nat → List Char → List Nat → Option (List Nat)
  | 0, _, _ => none
  | fuel + 1, cs, acc =>
    match cs.dropWhile isJsonWs with
    | d :: rest =>
      if !d.isDigit then none
      else
        let run := if d == '0' then ['0'] else (d :: rest).takeWhile Char.isDigit
        let after := (d :: rest).drop run.length
        match after.dropWhile isJsonWs with
        | ',' :: r2 => pDigitElems fuel r2 (acc ++ [digitsToNat run])
        | ']' :: r2 => if r2.isEmpty then some (acc ++ [digitsToNat run]) else none
        | _ => none
    | [] => none

/-- `JSON.parse` on a text matched by `/\[[\d,\s]*\]/`. -/
def parseDigitArray (cs : List Char) : Option (List Nat) :=
  match cs with
  | '[' :: body =>
    match body.dropWhile isJsonWs with
    | ']' :: r => if r.isEmpty then some [] else none
    | _ => pDigitElems (body.length + 1) body []
  | _ => none

/-- `Utils.parseFilterIndices` (src/js/utils.js:117-127): match
`/\[[\d,\s]*\]/` and `JSON.parse` the match; `none` when there is no
match or the parse throws. -/
def parseFilterIndices (text : String) : Option (List Nat) :=
  match bracketMatchL text.toList with
  | none => none
  | some sub => parseDigitArray sub

/-- The argument of `Utils.calculateProbabilityFromPrices`: a JSON
string, an already-parsed array, or an absent value, per the
`{string|Array}` contract at the call sites. -/
inductive PricesArg where
  | absent : PricesArg
  | str (s : String) : PricesArg
  | arr (xs : List Json) : PricesArg

/-- JS truthiness of a parsed JSON value (NaN cannot occur in one). -/
def jsTruthy : Json → Bool
  | .null => false
  | .bool b => b
  | .num q => !(q == 0)
  | .str s => !(s == "")
  | .arr _ => true
  | .obj _ => true

/-- The `.length` property of a parsed JSON value: array and string
lengths, an explicit `length` member of an object, else `undefined`
(modelled as `none`). -/
def jsLengthVal : Json → Option Json
  | .arr xs => some (.num xs.length)
  | .str s => some (.num s.length)
  | .obj kvs => (kvs.find? (fun p => p.1 == "length")).map (fun p => p.2)
  | _ => none

/-- JS `v > 0` for a property value (`undefined > 0` is handled by the
caller).  ToPrimitive coercion of composite values is not modelled; it
is unreachable for price data and unused by every theorem below. -/
def jsGtZero (v : Json) : Bool :=
  match v with
  | .num q => decide (0 < q)
  | .bool b => b
  | _ => false

/-- The `[0]` element of a parsed JSON value: array head, first
character of a string, an explicit `"0"` member of an object, else
`undefined` (`none`). -/
def jsIndex0 : Json → Option Json
  | .arr (x :: _) => some x
  | .str s =>
    match s.toList with
    | c :: _ => some (.str (String.mk [c]))
    | [] => none
  | .obj kvs => (kvs.find? (fun p => p.1 == "0")).map (fun p => p.2)
  | _ => none

/-- `parseFloat` on a string: skip leading whitespace, optional sign,
then the longest decimal-literal prefix; `none` is NaN.  The value is
assembled as one `mkRat` over integer arithmetic — the same rational
as integer-part + fraction, scaled by the exponent.  (`Infinity`
literals are not modelled; no finite-data path produces them.) -/
def parseFloatPre (s : String) : Option ℚ :=
  let cs := s.toList.dropWhile isJsWs
  let signAndRest := signSplit cs true
  let cs1 := signAndRest.2
  let ipart := cs1.takeWhile Char.isDigit
  let cs2 := cs1.drop ipart.length
  let fpart : List Char :=
    match cs2 with
    | '.' :: r => r.takeWhile Char.isDigit
    | _ => []
  if ipart.isEmpty ∧ fpart.isEmpty then none
  else
    let cs3 : List Char :=
      match cs2 with
      | '.' :: r => r.drop fpart.length
      | _ => cs2
    let baseNum : ℕ := digitsToNat ipart * 10 ^ fpart.length + digitsToNat fpart
    let expPart : Bool × ℕ :=
      match cs3 with
      | e :: r =>
        if e == 'e' || e == 'E' then
          let signAndRest2 := signSplit r true
          let ds := signAndRest2.2.takeWhile Char.isDigit
          if ds.isEmpty then (false, 0) else (signAndRest2.1, digitsToNat ds)
        else (false, 0)
      | [] => (false, 0)
    let num : ℤ :=
      (if signAndRest.1 then -1 else 1) *
        (baseNum * (if expPart.1 then 1 else 10 ^ expPart.2))
    let den : ℕ := 10 ^ fpart.length * (if expPart.1 then 10 ^ expPart.2 else 1)
    some (mkRat num den)

/-- `parseFloat` applied to a JSON value (after JS ToString): numbers
parse back to themselves in the exact-rational model; a string is
parsed as a prefix; an array stringifies to its comma-joined elements,
so `parseFloat` reads its first element; other values are NaN. -/
def jsParseFloatV : Json → Option ℚ
  | .num q => some q
  | .str s => parseFloatPre s
  | .arr (x :: _) => jsParseFloatV x
  | _ => none

/-- `parseFloat` of a possibly-`undefined` value. -/
def jsParseFloat : Option Json → Option ℚ
  | none => none
  | some v => jsParseFloatV v

/-- `Math.round`: round half toward positive infinity. -/
def jsRound (q : ℚ) : ℤ := ⌊q + 1 / 2⌋

/-- `Utils.calculateProbabilityFromPrices` (src/js/utils.js:134-147).
The result is a JS number: `some n` for the integer `n`, `none` for
NaN (`Math.round(parseFloat(prices[0]) * 100)` when the first entry is
not numeric). -/
def calculateProbabilityFromPrices (outcomePrices : PricesArg) : Option ℤ :=
  match outcomePrices with
  | .absent => some 50
  | .str s =>
    if s == "" then some 50
    else
      match jsonParse s with
      | none => some 50
      | some prices => calcProbFromParsed prices
  | .arr xs => calcProbFromParsed (.arr xs)
where
  /-- The body after `prices` is in scope: `prices && prices.length > 0`
  guards `Math.round(parseFloat(prices[0]) * 100)`, else 50. -/
  calcProbFromParsed (prices : Json) : Option ℤ :=
    if jsTruthy prices then
      match jsLengthVal prices with
      | some lenv =>
        if jsGtZero lenv then
          match jsParseFloat (jsIndex0 prices) with
          | some q => some (jsRound (q * 100))
          | none => none
        else some 50
      | none => some 50
    else some 50

/-- Extracted page content (title is passed separately alongside). -/
structure PageContent where
  description : String
  text : String

/-- JS word characters `[A-Za-z0-9_]` (the `\b` boundary class). -/
def isWordChar (c : Char) : Bool :=
  decide ('a' ≤ c ∧ c ≤ 'z') || decide ('A' ≤ c ∧ c ≤ 'Z') || c.isDigit || c == '_'

/-- Maximal runs of word characters of a character list (the reversed
accumulator holds the run in progress). -/
def wordRunsAux : List Char → List Char → List (List Char)
  | [], cur => if cur.isEmpty then [] else [cur.reverse]
  | c :: rest, cur =>
    if isWordChar c then wordRunsAux rest (c :: cur)
    else if cur.isEmpty then wordRunsAux rest []
    else cur.reverse :: wordRunsAux rest []

/-- All matches of `/\b[a-z]{3,}\b/g`: the maximal word-character runs
made solely of lowercase letters, of length at least three (a digit or
underscore adjacent to letters suppresses the boundary, so mixed runs
never match). -/
def tokenize (cs : List Char) : List String :=
  ((wordRunsAux cs []).filter
    (fun run => run.all (fun c => decide ('a' ≤ c ∧ c ≤ 'z')) && decide (3 ≤ run.length))).map
    String.mk

/-- `Utils.STOPWORDS` (src/js/utils.js:205-224).  The JS `Set` collapses
the duplicated literal entries; only membership is ever used. -/
def STOPWORDS : List String :=
  ["a", "an", "and", "are", "as", "at", "be", "by", "for", "from", "has", "he",
   "in", "is", "it", "its", "of", "on", "or", "that", "the", "to", "was", "were",
   "will", "with", "this", "but", "they", "have", "had", "what", "when", "where",
   "who", "which", "why", "how", "all", "each", "every", "both", "few", "more",
   "most", "other", "some", "such", "no", "nor", "not", "only", "own", "same",
   "so", "than", "too", "very", "can", "just", "should", "now", "also", "into",
   "over", "after", "before", "between", "under", "again", "further", "then",
   "once", "here", "there", "any", "about", "up", "out", "if", "because", "been",
   "being", "does", "did", "doing", "would", "could", "might", "must", "shall",
   "may", "says", "said", "like", "get", "got", "go", "going", "make", "made",
   "take", "new", "one", "two", "first", "last", "long", "great", "little", "own",
   "still", "back", "even", "much", "well", "many", "way", "use", "used", "using",
   "through", "while", "during", "without", "however", "another", "since", "until",
   "around", "ever", "never", "always", "often", "yet", "though", "rather", "quite",
   "almost", "already", "perhaps", "need", "come", "came", "year", "years", "time",
   "day", "days", "week", "weeks", "month", "months", "people", "world", "life",
   "part", "point", "place", "case", "thing", "things", "lot", "work", "number",
   "something", "anything", "nothing", "everything", "someone", "anyone", "everyone"]

/-- `Utils.TOPIC_BOOST_TERMS` (src/js/utils.js:229-253). -/
def TOPIC_BOOST_TERMS : List String :=
  ["trump", "biden", "harris", "election", "president", "congress", "senate",
   "democrat", "republican", "vote", "poll", "ballot", "campaign", "primary",
   "nominee", "governor", "mayor", "legislation", "impeach", "resign",
   "bitcoin", "crypto", "ethereum", "fed", "interest", "rate", "inflation",
   "recession", "gdp", "stock", "market", "nasdaq", "dow", "price", "trade",
   "tariff", "economy", "unemployment", "jobs", "dollar", "euro", "yen",
   "ai", "openai", "google", "apple", "microsoft", "meta", "tesla", "spacex",
   "nvidia", "chip", "semiconductor", "launch", "release", "iphone", "android",
   "nba", "nfl", "mlb", "nhl", "soccer", "football", "basketball", "baseball",
   "championship", "finals", "playoff", "superbowl", "worldcup", "olympics",
   "win", "champion", "mvp", "draft", "trade",
   "war", "ukraine", "russia", "china", "israel", "gaza", "nato", "military",
   "sanctions", "ceasefire", "peace", "nuclear", "missile", "invasion",
   "oscar", "emmy", "grammy", "movie", "film", "box", "office", "album",
   "fda", "vaccine", "covid", "pandemic", "climate", "hurricane", "earthquake",
   "nasa", "space", "moon", "mars", "discovery"]

/-- Frequency counting in first-occurrence order (JS object property
order for the non-numeric keys produced by the tokenizer). -/
def bumpCount : List (String × Nat) → String → List (String × Nat)
  | [], w => [(w, 1)]
  | (k, n) :: rest, w =>
    if k == w then (k, n + 1) :: rest else (k, n) :: bumpCount rest w

/-- `Utils.extractKeywordsLocal` (src/js/utils.js:261-295): tokenize the
lowercased title + description + text, drop stopwords, count, triple
the score of topic-boost terms, stable-sort descending by score, take
the top five words; fall back to the first space-delimited word of the
title, or `"general"`.  The summary is the fixed template. -/
def extractKeywordsLocal (pageContent : PageContent) (pageTitle : String) : Json :=
  let text := ((pageTitle ++ " " ++ pageContent.description ++ " " ++ pageContent.text).toList).map asciiLower
  let words := tokenize text
  let wordCounts := words.foldl
    (fun acc word => if STOPWORDS.contains word then acc else bumpCount acc word) []
  let scored := wordCounts.map
    (fun p => (p.1, if TOPIC_BOOST_TERMS.contains p.1 then p.2 * 3 else p.2))
  let sorted := scored.mergeSort (fun a b => decide (b.2 ≤ a.2))
  let keywords := (sorted.take 5).map (fun p => p.1)
  let summary := "Page about: " ++ (if pageTitle == "" then "Unknown topic" else pageTitle)
  let finalKeywords :=
    if keywords.isEmpty then
      [match (pageTitle.splitOn " ").headD "" with
       | "" => "general"
       | w => w]
    else keywords
  Json.obj [("summary", Json.str summary), ("keywords", Json.arr (finalKeywords.map Json.str))]

/-- A market as returned by the Polymarket search API.  Absent fields
are `none`; `outcomePrices` is a JSON string in practice but keeps the
`{string|Array}` contract of the consumer. -/
structure RawMarket where
  conditionId : Option String
  mid : Option String
  question : String
  groupItemTitle : Option String
  outcomePrices : PricesArg
  clobTokenIds : Option String
  volume : Option String
  closed : Bool

/-- An event as returned by the Polymarket search API. -/
structure RawEvent where
  id : String
  title : String
  slug : String
  image : Option String
  icon : Option String
  volume : Option String
  markets : List RawMarket

/-- A normalized market outcome (`_transformSearchResults` output). -/
structure Market where
  id : Option String
  clobTokenId : Option Json
  title : String
  question : String
  probability : Option ℤ
  volume : String
  closed : Bool

/-- A normalized market event. -/
structure Event where
  eventId : String
  eventTitle : String
  eventSlug : String
  eventImage : Option String
  eventVolume : String
  url : String
  markets : List Market

/-- JS `a || b` on two possibly-absent strings (empty string is falsy). -/
def jsOr (a b : Option String) : Option String :=
  match a with
  | some s => if s == "" then b else some s
  | none => b

/-- JS `a || b` with a present default (empty string is falsy). -/
def jsOrStr (a : Option String) (b : String) : String :=
  match a with
  | some s => if s == "" then b else s
  | none => b

/-- The body of the market loop of
`PolymarketService._transformSearchResults` (src/js/api-polymarket.js:
108-138): `continue` on closed markets and on zero-volume placeholder
markets at the 50 default, else the normalized market. -/
def transformMarket (market : RawMarket) : Option Market :=
  if market.closed then none
  else
    let title := jsOrStr market.groupItemTitle market.question
    let probability := calculateProbabilityFromPrices market.outcomePrices
    let volume : ℚ :=
      match market.volume with
      | none => 0
      | some s =>
        match parseFloatPre s with
        | some q => q
        | none => 0
    if volume == 0 ∧ probability == some 50 then none
    else
      let clobTokenId : Option Json :=
        match market.clobTokenIds with
        | none => none
        | some s =>
          if s == "" then none
          else
            match jsonParse s with
            | none => none
            | some tokenIds => jsIndex0 tokenIds
      some { id := jsOr market.conditionId market.mid,
             clobTokenId := clobTokenId,
             title := title,
             question := market.question,
             probability := probability,
             volume := jsOrStr market.volume "0",
             closed := market.closed }

/-- `PolymarketService._transformSearchResults` (src/js/api-polymarket.
js:102-154): transform each event's markets and keep only events with
at least one surviving market. -/
def transformSearchResults (events : List RawEvent) : List Event :=
  events.filterMap (fun event =>
    let markets := event.markets.filterMap transformMarket
    if markets.isEmpty then none
    else some { eventId := event.id,
                eventTitle := event.title,
                eventSlug := event.slug,
                eventImage := jsOr event.image event.icon,
                eventVolume := jsOrStr event.volume "0",
                url := "https://polymarket.com/event/" ++ event.slug,
                markets := markets })

/-- One step of `PolymarketService._deduplicateEvents` (src/js/
api-polymarket.js:160-179): on a repeated event id, append the markets
whose id is not already present (the id set is computed once, before
the appends); otherwise insert the event (JS `Map` keeps insertion
order). -/
def dedupStep (acc : List Event) (e : Event) : List Event :=
  if acc.any (fun x => x.eventId == e.eventId) then
    acc.map (fun x =>
      if x.eventId == e.eventId then
        let novel := e.markets.filter (fun m => !(x.markets.any (fun xm => xm.id == m.id)))
        { x with markets := x.markets ++ novel }
      else x)
  else acc ++ [e]

/-- `PolymarketService._deduplicateEvents`. -/
def deduplicateEvents (allEvents : List Event) : List Event :=
  allEvents.foldl dedupStep []

/-- The search pipeline after the network layer: per-keyword transformed
result lists, concatenated in keyword order, then deduplicated
(`PolymarketService.search`, src/js/api-polymarket.js:38-54). -/
def searchModel (responses : List (List RawEvent)) : List Event :=
  deduplicateEvents (responses.map transformSearchResults).flatten

/-- `CONFIG.MAX_MARKETS_TO_DISPLAY` (config.js). -/
def MAX_MARKETS_TO_DISPLAY : Nat := 8

/-- `CONFIG.NANO_CONTENT_MAX_LENGTH` (config.js). -/
def NANO_CONTENT_MAX_LENGTH : Nat := 3000

/-- The `AppState.fallbackUsed` flags, threaded as explicit state. -/
structure FallbackFlags where
  analysis : Bool
  filter : Bool

/-- Outcome of a `fetch` of the Gemini endpoint that did not itself
throw: the `response.ok` flag, the error message recovered from a
non-ok body (`errorData.error?.message || response.statusText`), and
the generated text `data.candidates[0].content.parts[0].text` of an ok
body. -/
structure ApiResp where
  ok : Bool
  errMsg : String
  text : String

/-- Environment of one on-device analysis attempt: the outcome of the
multimodal `LanguageModel.availability` probe, and of session creation
and prompting for the text-only and multimodal sessions.  These stand
for the external on-device model runtime. -/
structure NanoEnv where
  availability : Except String String
  createText : Except String Unit
  promptText : Except String String
  createMm : Except String Unit
  promptMm : Except String String

/-- `GeminiService._runNanoTextOnly` (part_005:199-209).  The second
component records whether `session.destroy()` was executed: the source
has no try/finally, so an exception from `session.prompt` propagates
before the `destroy()` statement is reached. -/
def runNanoTextOnly (create : Except String Unit) (promptRes : Except String String) :
    Except String String × Bool :=
  match create with
  | .error e => (.error e, false)
  | .ok _ =>
    match promptRes with
    | .error e => (.error e, false)
    | .ok r => (.ok r, true)

/-- `GeminiService._runNanoMultimodal` (part_005:215-239): same
create/prompt/destroy sequence as the text-only variant, with the
image-bearing session and prompt. -/
def runNanoMultimodal (create : Except String Unit) (promptRes : Except String String) :
    Except String String × Bool :=
  match create with
  | .error e => (.error e, false)
  | .ok _ =>
    match promptRes with
    | .error e => (.error e, false)
    | .ok r => (.ok r, true)

/-- `GeminiService._analyzeWithApi` (part_005:102-146): a thrown fetch
or a non-ok response is wrapped and rethrown; an ok response's text is
parsed with `parseAnalysisResponse` (which never throws). -/
def analyzeWithApi (outcome : Except String ApiResp) (pageTitle : String) :
    Except String Json :=
  match outcome with
  | .error e => .error ("Failed to analyze content with Gemini: " ++ e)
  | .ok resp =>
    if resp.ok then .ok (parseAnalysisResponse resp.text pageTitle)
    else .error ("Failed to analyze content with Gemini: Gemini API error: " ++ resp.errMsg)

/-- `GeminiService._analyzeWithNano` (part_005:152-193): with a
screenshot, probe multimodal availability (a thrown probe is caught and
leaves multimodal off); a failed multimodal run falls back to a
text-only run; the surviving result is parsed, and a final failure is
wrapped and rethrown.  Content truncation to `NANO_CONTENT_MAX_LENGTH`
only affects the prompt text, which is abstracted into the prompt
outcomes of the environment. -/
def analyzeWithNano (env : NanoEnv) (screenshot : Option String) (pageTitle : String) :
    Except String Json :=
  let useMultimodal : Bool :=
    match screenshot with
    | none => false
    | some _ =>
      match env.availability with
      | .error _ => false
      | .ok avail => !(avail == "unavailable")
  let runRes : Except String String :=
    if useMultimodal then
      match (runNanoMultimodal env.createMm env.promptMm).1 with
      | .ok r => .ok r
      | .error _ => (runNanoTextOnly env.createText env.promptText).1
    else (runNanoTextOnly env.createText env.promptText).1
  match runRes with
  | .ok r => .ok (parseAnalysisResponse r pageTitle)
  | .error e => .error ("Failed to analyze content with Gemini Nano: " ++ e)

/-- The backend dispatch inside `GeminiService.analyze`'s try block:
`AppState.isUsingNano()` selects the on-device path, anything else the
remote path. -/
def analyzeBackend (usingNano : Bool) (env : NanoEnv) (apiOutcome : Except String ApiResp)
    (screenshot : Option String) (pageTitle : String) : Except String Json :=
  if usingNano then analyzeWithNano env screenshot pageTitle
  else analyzeWithApi apiOutcome pageTitle

/-- `GeminiService.analyze` (part_005:68-81): any exception from either
backend path is caught at this boundary, the analysis fallback flag is
set, and `Utils.extractKeywordsLocal` supplies the result. -/
def analyze (usingNano : Bool) (env : NanoEnv) (apiOutcome : Except String ApiResp)
    (flags : FallbackFlags) (pageContent : PageContent) (pageTitle : String)
    (screenshot : Option String) : Json × FallbackFlags :=
  match analyzeBackend usingNano env apiOutcome screenshot pageTitle with
  | .ok j => (j, flags)
  | .error _ => (extractKeywordsLocal pageContent pageTitle, { flags with analysis := true })

/-- `GeminiService._applyFilterIndices` (part_005:309-319): with no
parsed indices, the first `MAX_MARKETS_TO_DISPLAY` events; otherwise
the in-range indices, in the order given by the model, mapped to
events (1-based), truncated. -/
def applyFilterIndices (events : List Event) (responseText : String) : List Event :=
  match parseFilterIndices responseText with
  | none => events.take MAX_MARKETS_TO_DISPLAY
  | some indices =>
    (((indices.filter (fun i => decide (1 ≤ i ∧ i ≤ events.length))).filterMap
      (fun i => events.get? (i - 1))).take MAX_MARKETS_TO_DISPLAY)

/-- `GeminiService._filterWithApi` (part_005:245-279): a thrown fetch or
a non-ok response sets the filter fallback flag and returns the first
eight events; an ok response is parsed by `_applyFilterIndices`, which
sets no flag. -/
def filterWithApi (events : List Event) (flags : FallbackFlags)
    (outcome : Except String ApiResp) : List Event × FallbackFlags :=
  match outcome with
  | .error _ => (events.take MAX_MARKETS_TO_DISPLAY, { flags with filter := true })
  | .ok resp =>
    if resp.ok then (applyFilterIndices events resp.text, flags)
    else (events.take MAX_MARKETS_TO_DISPLAY, { flags with filter := true })

/-- `GeminiService._filterWithNano` (part_005:285-303): session create
or prompt exceptions are caught, setting the filter fallback flag and
returning the first eight events; the second component records whether
`session.destroy()` was executed (skipped when `prompt` throws). -/
def filterWithNano (events : List Event) (flags : FallbackFlags)
    (create : Except String Unit) (promptRes : Except String String) :
    (List Event × FallbackFlags) × Bool :=
  match create with
  | .error _ => ((events.take MAX_MARKETS_TO_DISPLAY, { flags with filter := true }), false)
  | .ok _ =>
    match promptRes with
    | .error _ => ((events.take MAX_MARKETS_TO_DISPLAY, { flags with filter := true }), false)
    | .ok text => ((applyFilterIndices events text, flags), true)

/-- `GeminiService.filterEvents` (part_005:89-96): empty input is
returned unchanged with no backend call; otherwise the configured
backend filters. -/
def filterEvents (usingNano : Bool) (events : List Event) (flags : FallbackFlags)
    (apiOutcome : Except String ApiResp) (create : Except String Unit)
    (promptRes : Except String String) : List Event × FallbackFlags :=
  if events.length == 0 then (events, flags)
  else if usingNano then (filterWithNano events flags create promptRes).1
  else filterWithApi events flags apiOutcome

/-- A stored cache record (`CacheService.set` shape). -/
structure CacheEntry (α : Type) where
  data : α
  cachedAt : ℤ
  expiresAt : ℤ
  url : String

/-- `chrome.storage.local` as an association list keyed by strings. -/
def storageGet {α : Type} (store : List (String × CacheEntry α)) (k : String) :
    Option (CacheEntry α) :=
  (store.find? (fun p => p.1 == k)).map (fun p => p.2)

/-- `chrome.storage.local.set` of one key: replace in place or append. -/
def storageSet {α : Type} (store : List (String × CacheEntry α)) (k : String)
    (v : CacheEntry α) : List (String × CacheEntry α) :=
  if store.any (fun p => p.1 == k) then
    store.map (fun p => if p.1 == k then (k, v) else p)
  else store ++ [(k, v)]

/-- `chrome.storage.local.remove` of one key. -/
def storageRemove {α : Type} (store : List (String × CacheEntry α)) (k : String) :
    List (String × CacheEntry α) :=
  store.filter (fun p => !(p.1 == k))

/-- JS `ToInt32`: wrap into the signed 32-bit range. -/
def toInt32 (n : ℤ) : ℤ := (n + 2 ^ 31) % 2 ^ 32 - 2 ^ 31

/-- UTF-16 code units of a string (`charCodeAt` sees surrogate pairs
for code points beyond the basic plane). -/
def utf16Units (s : String) : List Nat :=
  s.toList.flatMap (fun c =>
    if c.toNat < 0x10000 then [c.toNat]
    else [0xd800 + (c.toNat - 0x10000) / 0x400, 0xdc00 + (c.toNat - 0x10000) % 0x400])

/-- One iteration of `CacheService._hashUrl`'s loop:
`hash = ((hash << 5) - hash) + char; hash = hash & hash`.  The shift
wraps to 32 bits; the subtraction and addition are exact in a float64
at these magnitudes; `hash & hash` wraps again. -/
def hashStep (h : ℤ) (code : Nat) : ℤ :=
  toInt32 (toInt32 (h * 32) - h + code)

/-- Lowercase base-36 digit. -/
def digit36 (d : Nat) : Char :=
  if d < 10 then Char.ofNat (48 + d) else Char.ofNat (87 + d)

/-- Base-36 digits of a natural number (fuel-driven). -/
def natToBase36Aux : Nat → Nat → List Char
  | 0, _ => []
  | fuel + 1, n =>
    if n < 36 then [digit36 n]
    else natToBase36Aux fuel (n / 36) ++ [digit36 (n % 36)]

/-- `Number.prototype.toString(36)` of a natural number. -/
def natToBase36 (n : Nat) : List Char := natToBase36Aux (n + 1) n

/-- `CacheService._hashUrl` (src/js/cache.js:94-102): 32-bit rolling
hash of the code units, absolute value, base-36. -/
def hashUrl (url : String) : String :=
  String.mk (natToBase36 ((utf16Units url).foldl hashStep 0).natAbs)

/-- The storage key of a URL: `CACHE_KEY_PREFIX + _hashUrl(normalized)`.
`Utils.normalizeUrl` delegates to the browser's `URL` parser and to
`CONFIG.TRACKING_PARAMS` (not among the provided sources), so the
normalization is passed in as a function parameter `norm`. -/
def cacheKeyOf (norm : String → String) (url : String) : String :=
  "cache_" ++ hashUrl (norm url)

/-- `CacheService.get` (src/js/cache.js:14-35): a missing entry is a
miss; an entry with `now > expiresAt` is removed and reported as a
miss; otherwise the stored data is returned.  The updated store is the
second component. -/
def cacheGet {α : Type} (norm : String → String) (now : ℤ)
    (store : List (String × CacheEntry α)) (url : String) :
    Option α × List (String × CacheEntry α) :=
  let cacheKey := cacheKeyOf norm url
  match storageGet store cacheKey with
  | none => (none, store)
  | some cached =>
    if cached.expiresAt < now then (none, storageRemove store cacheKey)
    else (some cached.data, store)

/-- `CacheService.set` (src/js/cache.js:42-58).  `CONFIG.CACHE_TTL_MS`
is referenced by the source but its value is not among the provided
sources; modelled from the spec: `TTL is a fixed configured duration`,
taken here as the parameter `ttl`. -/
def cacheSet {α : Type} (norm : String → String) (ttl now : ℤ)
    (store : List (String × CacheEntry α)) (url : String) (data : α) :
    List (String × CacheEntry α) :=
  let cacheKey := cacheKeyOf norm url
  storageSet store cacheKey { data := data, cachedAt := now, expiresAt := now + ttl, url := norm url }

/-- Keep the first market per id (the deduplication the spec describes
for merged outcome sets); `seen` holds the ids already emitted. -/
def dedupByIdAux (seen : List (Option String)) : List Market → List Market
  | [] => []
  | m :: rest =>
    if m.id ∈ seen then dedupByIdAux seen rest
    else m :: dedupByIdAux (m.id :: seen) rest

/-- First-seen-order deduplication of markets by id. -/
def dedupById (ms : List Market) : List Market := dedupByIdAux [] ms

/-- First-seen-order deduplication of keys. -/
def firstSeenKeysAux (seen : List String) : List String → List String
  | [] => []
  | k :: rest =>
    if k ∈ seen then firstSeenKeysAux seen rest
    else k :: firstSeenKeysAux (k :: seen) rest

/-- The concatenated markets of all occurrences of an event id, in
occurrence order. -/
def occurrenceMarkets (all : List Event) (eid : String) : List Market :=
  ((all.filter (fun e => e.eventId == eid)).map (fun e => e.markets)).flatten

/-- The merged event of one event id: the first-seen occurrence's
metadata with the deduplicated union of all occurrences' markets. -/
def mergeBody (all : List Event) (eid : String) : Option Event :=
  match all.find? (fun e => e.eventId == eid) with
  | none => none
  | some first => some { first with markets := dedupById (occurrenceMarkets all eid) }

/-- Deduplication as the claim words it: one event per event id in
first-seen order, the first-seen occurrence's metadata, and the union
of the markets of all occurrences deduplicated by market id in
first-seen order. -/
def dedupMergeSpec (all : List Event) : List Event :=
  (firstSeenKeysAux [] (all.map (fun e => e.eventId))).filterMap (mergeBody all)

/-- A sample market with the given id. -/
def evM (mid : String) : Market :=
  { id := some mid, clobTokenId := none, title := "t", question := "q",
    probability := some 60, volume := "1", closed := false }

/-- A sample event with the given id and markets. -/
def evE (eid : String) (ms : List Market) : Event :=
  { eventId := eid, eventTitle := "T", eventSlug := "s", eventImage := none,
    eventVolume := "1", url := "u", markets := ms }

/-- A sample event with one market, for concrete filter runs. -/
def mkEvent (eid : String) : Event := evE eid [evM eid]

/-- A raw search payload with one open, traded market. -/
def rawSample : RawEvent :=
  { id := "E", title := "T", slug := "s", image := none, icon := none,
    volume := some "1",
    markets := [{ conditionId := some "m", mid := none, question := "q",
                  groupItemTitle := none, outcomePrices := PricesArg.str "[\"0.61\"]",
                  clobTokenIds := none, volume := some "1", closed := false }] }

/-- The event the sample payload transforms to. -/
def sampleEvent : Event :=
  (searchModel [[rawSample]]).headD (evE "" [])

/-- A raw payload whose single event repeats one conditionId across two
open, traded markets. -/
def rawDupIds : RawEvent :=
  { id := "E", title := "T", slug := "s", image := none, icon := none,
    volume := some "1",
    markets := [{ conditionId := some "m", mid := none, question := "q1",
                  groupItemTitle := none, outcomePrices := PricesArg.str "[\"0.6\"]",
                  clobTokenIds := none, volume := some "1", closed := false },
                { conditionId := some "m", mid := none, question := "q2",
                  groupItemTitle := none, outcomePrices := PricesArg.str "[\"0.7\"]",
                  clobTokenIds := none, volume := some "1", closed := false }] }

/-- Total 0-based lookup with a dummy event, used to state the filter's
selection semantics: on the in-range indices the lookup never misses,
so `events[i - 1]` is this total function. -/
def getEv (events : List Event) (n : Nat) : Event :=
  match events.get? n with
  | some e => e
  | none => evE "" []

/-- C1: `GeminiService.analyze` never throws: whenever the selected
backend path (remote or on-device) ends in an exception, `analyze`
returns `Utils.extractKeywordsLocal(pageContent, pageTitle)` and sets
the analysis fallback flag; on backend success it returns the backend
result and leaves the flags untouched. -/
theorem C1_analyze_fallback (usingNano : Bool) (env : NanoEnv) (api : Except String ApiResp)
    (flags : FallbackFlags) (pc : PageContent) (title : String) (shot : Option String) :
    (∀ e, analyzeBackend usingNano env api shot title = .error e →
      analyze usingNano env api flags pc title shot =
        (extractKeywordsLocal pc title, { flags with analysis := true })) ∧
    (∀ j, analyzeBackend usingNano env api shot title = .ok j →
      analyze usingNano env api flags pc title shot = (j, flags)) := by
  constructor
  · intro e h
    simp [analyze, h]
  · intro j h
    simp [analyze, h]

/-- C1 witness: a remote fetch failure falls back to the local
extractor and sets the analysis flag. -/
theorem C1_analyze_fallback_witness :
    analyze false ⟨.ok "", .ok (), .ok "", .ok (), .ok ""⟩ (.error "network down")
        ⟨false, false⟩ ⟨"d", "t"⟩ "Title" none =
      (extractKeywordsLocal ⟨"d", "t"⟩ "Title", ⟨true, false⟩) :=
  (C1_analyze_fallback false ⟨.ok "", .ok (), .ok "", .ok (), .ok ""⟩ (.error "network down")
      ⟨false, false⟩ ⟨"d", "t"⟩ "Title" none).1
    "Failed to analyze content with Gemini: network down" rfl

/-- C2: the three parsing tiers of `parseAnalysisResponse`: a
well-formed JSON object round-trips exactly, with or without ```json
fences; broken JSON containing `"summary": "partial"` recovers that
summary with the fallback title as sole keyword; garbage yields the
canned summary with the fallback title as sole keyword. -/
theorem C2_parse_analysis_three_tiers (t : String) :
    parseAnalysisResponse "\x7b\"summary\":\"x\",\"keywords\":[\"a\",\"b\"]\x7d" t =
      Json.obj [("summary", Json.str "x"), ("keywords", Json.arr [Json.str "a", Json.str "b"])] ∧
    parseAnalysisResponse "```json\n\x7b\"summary\":\"x\",\"keywords\":[\"a\",\"b\"]\x7d\n```" t =
      Json.obj [("summary", Json.str "x"), ("keywords", Json.arr [Json.str "a", Json.str "b"])] ∧
    parseAnalysisResponse "\x7b\"summary\": \"partial\", oops\x7d" t =
      Json.obj [("summary", Json.str "partial"), ("keywords", Json.arr [Json.str t])] ∧
    parseAnalysisResponse "garbage with no json" t =
      Json.obj [("summary", Json.str "Unable to analyze this page."),
        ("keywords", Json.arr [Json.str t])] :=
  ⟨rfl, rfl, rfl, rfl⟩

/-- C5: the code contradicts the spec's release-on-every-exit-path
obligation: when `LanguageModel.create` succeeds and `session.prompt`
throws, none of `_runNanoTextOnly`, `_runNanoMultimodal` and
`_filterWithNano` reach their `session.destroy()` call (second
component `false`), because no try/finally guards it. -/
theorem C5_nano_session_leak :
    runNanoTextOnly (.ok ()) (.error "prompt failed") = (.error "prompt failed", false) ∧
    runNanoMultimodal (.ok ()) (.error "prompt failed") = (.error "prompt failed", false) ∧
    (filterWithNano [mkEvent "1"] ⟨false, false⟩ (.ok ()) (.error "prompt failed")).2 = false :=
  ⟨rfl, rfl, rfl⟩

/-- C9 counterexample: the claim's range bound fails — a first price
entry of 2 yields probability 200, outside [0, 100]; nothing clamps
the rounded value. -/
theorem C9_probability_out_of_range :
    calculateProbabilityFromPrices (.arr [Json.num 2]) = some 200 ∧
    ¬ ((200 : ℤ) ≤ 100) := by
  have h2 : calculateProbabilityFromPrices (.arr [Json.num 2]) = some (jsRound (2 * 100)) := rfl
  have h3 : jsRound ((2 : ℚ) * 100) = 200 := by
    show ⌊(2 : ℚ) * 100 + 1 / 2⌋ = 200
    rw [show (2 : ℚ) * 100 + 1 / 2 = 401 / 2 by norm_num]
    (rw [Int.floor_eq_iff]; norm_num)
  refine ⟨h2.trans ?_, by decide⟩
  rw [h3]

/-- C9 amended: the function returns 50 exactly when the input is
absent, empty or unparseable; a JSON string that parses to an array is
handled exactly as that array; a nonempty array yields the rounded
value of 100 times `parseFloat` of its first entry — whatever its JSON
type — and NaN when that entry is non-numeric; the result lies in
[0, 100] under the additional assumption that the first price lies in
[0, 1]. -/
theorem C9_probability_amended (s sa : String) (q : ℚ) (x : Json) (xs rest : List Json) :
    calculateProbabilityFromPrices .absent = some 50 ∧
    (s ≠ "" → jsonParse s = none → calculateProbabilityFromPrices (.str s) = some 50) ∧
    calculateProbabilityFromPrices (.arr []) = some 50 ∧
    (sa ≠ "" → jsonParse sa = some (Json.arr xs) →
      calculateProbabilityFromPrices (.str sa) = calculateProbabilityFromPrices (.arr xs)) ∧
    (jsParseFloatV x = some q →
      calculateProbabilityFromPrices (.arr (x :: rest)) = some (jsRound (q * 100))) ∧
    (jsParseFloatV x = none →
      calculateProbabilityFromPrices (.arr (x :: rest)) = none) ∧
    (0 ≤ q → q ≤ 1 → 0 ≤ jsRound (q * 100) ∧ jsRound (q * 100) ≤ 100) := by
  have hp : (0 : ℚ) < (((x :: rest).length : ℕ) : ℚ) := by
    rw [List.length_cons]
    positivity
  have hnn : (0 : ℚ) ≤ (rest.length : ℚ) := Nat.cast_nonneg _
  refine ⟨rfl, ?_, rfl, ?_, ?_, ?_, ?_⟩
  · intro hne hparse
    simp [calculateProbabilityFromPrices, hparse, hne]
  · intro hne hparse
    simp [calculateProbabilityFromPrices, hne, hparse]
  · intro hpf
    simp only [calculateProbabilityFromPrices, calculateProbabilityFromPrices.calcProbFromParsed,
      jsTruthy, jsLengthVal, jsGtZero, jsIndex0, jsParseFloat]
    simp [hp, hpf]
    intro h
    linarith
  · intro hpf
    simp only [calculateProbabilityFromPrices, calculateProbabilityFromPrices.calcProbFromParsed,
      jsTruthy, jsLengthVal, jsGtZero, jsIndex0, jsParseFloat]
    simp [hp, hpf]
    linarith
  · intro h0 h1
    constructor
    · exact Int.floor_nonneg.mpr (by linarith)
    · have h : q * 100 + 1 / 2 ≤ (201 : ℚ) / 2 := by linarith
      have h2 : jsRound (q * 100) ≤ ⌊(201 : ℚ) / 2⌋ := Int.floor_le_floor h
      have h3 : ⌊(201 : ℚ) / 2⌋ = 100 := by
        (rw [Int.floor_eq_iff]; norm_num)
      omega

/-- C9 amended witness: the API's actual shape — a JSON-string-encoded
array with a string-valued first entry — evaluated through the
theorem, plus the unparseable and NaN cases and the range bound. -/
theorem C9_probability_amended_witness :
    calculateProbabilityFromPrices (.str "bad") = some 50 ∧
    calculateProbabilityFromPrices (.str "[\"0.61\"]") = some 61 ∧
    calculateProbabilityFromPrices (.arr [Json.bool true]) = none ∧
    (0 ≤ jsRound (mkRat 61 100 * 100) ∧ jsRound (mkRat 61 100 * 100) ≤ 100) := by
  have hT := C9_probability_amended "bad" "[\"0.61\"]" (mkRat 61 100) (Json.str "0.61")
    [Json.str "0.61"] []
  have hT2 := C9_probability_amended "bad" "[\"0.61\"]" (mkRat 61 100) (Json.bool true)
    [Json.str "0.61"] []
  have hq : (mkRat 61 100 : ℚ) = 61 / 100 := by
    rw [Rat.mkRat_eq_div]
    norm_num
  have hround : jsRound (mkRat 61 100 * 100) = 61 := by
    show ⌊mkRat 61 100 * 100 + 1 / 2⌋ = 61
    rw [hq, show (61 : ℚ) / 100 * 100 + 1 / 2 = 123 / 2 by norm_num]
    (rw [Int.floor_eq_iff]; norm_num)
  refine ⟨hT.2.1 (by decide) rfl, ?_, hT2.2.2.2.2.2.1 rfl, ?_⟩
  · have h1 := hT.2.2.2.1 (by decide) rfl
    have h2 := hT.2.2.2.2.1 rfl
    rw [h1, h2, hround]
  · exact hT.2.2.2.2.2.2 (by rw [hq]; norm_num) (by rw [hq]; norm_num)

/-- C10: when the greedy brace match of the fence-stripped text parses
as JSON, `parseAnalysisResponse` returns the parsed value verbatim
with no shape validation: for the input `{}` the result is an object
with neither a `summary` nor a `keywords` member.  The fallback shape
is produced only when that parse is unavailable. -/
theorem C10_tier1_verbatim_no_validation :
    (∀ (s t sub : String) (v : Json),
      braceMatch (cleanMarkdownCodeFences s) = some sub → jsonParse sub = some v →
        parseAnalysisResponse s t = v) ∧
    (∀ t : String, parseAnalysisResponse "\x7b\x7d" t = Json.obj []) ∧
    (Json.obj []).hasKey "summary" = false ∧
    (Json.obj []).hasKey "keywords" = false := by
  refine ⟨?_, fun t => rfl, rfl, rfl⟩
  intro s t sub v h1 h2
  simp [parseAnalysisResponse, h1, h2]

/-- C10 witness: the general tier-1 statement applied at `{}`. -/
theorem C10_tier1_witness :
    parseAnalysisResponse "\x7b\x7d" "Title" = Json.obj [] :=
  C10_tier1_verbatim_no_validation.1 "\x7b\x7d" "Title" "\x7b\x7d" (Json.obj []) rfl rfl

/-- Both branches of `_applyFilterIndices` truncate to the display
cap. -/
theorem applyFilterIndices_length_le (events : List Event) (text : String) :
    (applyFilterIndices events text).length ≤ MAX_MARKETS_TO_DISPLAY := by
  unfold applyFilterIndices
  cases parseFilterIndices text with
  | none => exact List.length_take_le _ _
  | some idx => exact List.length_take_le _ _

/-- Everything `_applyFilterIndices` returns occurs in its input (the
in-range filter makes every lookup succeed inside the list). -/
theorem applyFilterIndices_mem (events : List Event) (text : String) :
    ∀ e ∈ applyFilterIndices events text, e ∈ events := by
  intro e he
  unfold applyFilterIndices at he
  cases h : parseFilterIndices text with
  | none =>
    rw [h] at he
    exact List.take_subset _ _ he
  | some idx =>
    rw [h] at he
    have hmem := List.take_subset _ _ he
    obtain ⟨i, _, hget⟩ := List.mem_filterMap.mp hmem
    exact List.get?_mem hget

/-- On indices that are all in range, the defensive lookup drops
nothing: it is the plain total selection, in the given order. -/
theorem filterMap_get?_eq_map_getEv (events : List Event) (l : List Nat)
    (h : ∀ i ∈ l, 1 ≤ i ∧ i ≤ events.length) :
    l.filterMap (fun i => events.get? (i - 1)) =
      l.map (fun i => getEv events (i - 1)) := by
  induction l with
  | nil => rfl
  | cons i rest ih =>
    have hi := h i (List.mem_cons_self i rest)
    have hlt : i - 1 < events.length := by omega
    have hg : events.get? (i - 1) = some (getEv events (i - 1)) := by
      cases hq : events.get? (i - 1) with
      | none =>
        have := List.get?_eq_none.mp hq
        omega
      | some x => simp only [getEv, hq]
    simp only [List.filterMap_cons, List.map_cons, hg]
    exact congrArg _ (ih (fun j hj => h j (List.mem_cons_of_mem _ hj)))

/-- With parsed indices, `_applyFilterIndices` returns exactly the
events selected by the in-range indices, in the order the model gave
them, truncated to the display cap — out-of-range indices are dropped
by the range filter and every surviving index is a safe access. -/
theorem applyFilterIndices_selection (events : List Event) (text : String) (idx : List Nat)
    (h : parseFilterIndices text = some idx) :
    applyFilterIndices events text =
      ((idx.filter (fun i => decide (1 ≤ i ∧ i ≤ events.length))).map
        (fun i => getEv events (i - 1))).take MAX_MARKETS_TO_DISPLAY := by
  unfold applyFilterIndices
  simp only [h]
  refine congrArg _ ?_
  refine filterMap_get?_eq_map_getEv events _ ?_
  intro i hi
  exact of_decide_eq_true (List.mem_filter.mp hi).2

/-- The first component of `filterEvents` is always a truncation of the
input or an index selection from it. -/
theorem filterEvents_fst_shape (usingNano : Bool) (events : List Event)
    (flags : FallbackFlags) (api : Except String ApiResp) (create : Except String Unit)
    (promptRes : Except String String) :
    (filterEvents usingNano events flags api create promptRes).1 =
        events.take MAX_MARKETS_TO_DISPLAY ∨
    ∃ text, (filterEvents usingNano events flags api create promptRes).1 =
        applyFilterIndices events text := by
  unfold filterEvents
  by_cases h : (events.length == 0) = true
  · left
    have hnil : events = [] := List.eq_nil_of_length_eq_zero (by simpa using h)
    simp [h, hnil]
  · simp only [h, Bool.false_eq_true, if_false]
    cases usingNano with
    | false =>
      simp only [if_false, Bool.false_eq_true]
      unfold filterWithApi
      cases api with
      | error e => left; rfl
      | ok resp =>
        by_cases hok : resp.ok = true
        · right
          exact ⟨resp.text, by simp [hok]⟩
        · left
          simp [hok]
    | true =>
      simp only [if_true]
      unfold filterWithNano
      cases create with
      | error e => left; rfl
      | ok u =>
        cases promptRes with
        | error e => left; rfl
        | ok text => right; exact ⟨text, rfl⟩

/-- C3 counterexample: with a successful HTTP response whose text has
no bracket match (`parseFilterIndices` is `null`), `filterEvents`
returns the first eight events but leaves the filter fallback flag
unset, contradicting the claim that the flag is set in both failure
modes. -/
theorem C3_parse_null_leaves_flag_unset :
    parseFilterIndices "irrelevant" = none ∧
    filterEvents false [mkEvent "1"] ⟨false, false⟩ (.ok ⟨true, "", "irrelevant"⟩) (.ok ())
        (.ok "") = ([mkEvent "1"], ⟨false, false⟩) :=
  ⟨rfl, rfl⟩

/-- C3 amended: on HTTP failure (a thrown fetch, a non-ok response, or
an on-device session/prompt exception) `filterEvents` returns the
first eight events and sets the filter fallback flag; when the call
succeeds but parsing yields no bracket match it returns the first
eight events with the flag left unchanged. -/
theorem C3_filter_fallback_amended (events : List Event) (flags : FallbackFlags)
    (e : String) (resp : ApiResp) (api : Except String ApiResp)
    (create : Except String Unit) (ptext : String) (hne : events ≠ []) :
    (filterEvents false events flags (.error e) create (.ok ptext) =
      (events.take MAX_MARKETS_TO_DISPLAY, { flags with filter := true })) ∧
    (resp.ok = false →
      filterEvents false events flags (.ok resp) create (.ok ptext) =
        (events.take MAX_MARKETS_TO_DISPLAY, { flags with filter := true })) ∧
    (resp.ok = true → parseFilterIndices resp.text = none →
      filterEvents false events flags (.ok resp) create (.ok ptext) =
        (events.take MAX_MARKETS_TO_DISPLAY, flags)) ∧
    (filterEvents true events flags api (.error e) (.ok ptext) =
      (events.take MAX_MARKETS_TO_DISPLAY, { flags with filter := true })) ∧
    (filterEvents true events flags api (.ok ()) (.error e) =
      (events.take MAX_MARKETS_TO_DISPLAY, { flags with filter := true })) ∧
    (parseFilterIndices ptext = none →
      filterEvents true events flags api (.ok ()) (.ok ptext) =
        (events.take MAX_MARKETS_TO_DISPLAY, flags)) := by
  have hlen : (events.length == 0) = false := by
    cases events with
    | nil => exact absurd rfl hne
    | cons a l => simp
  refine ⟨?_, ?_, ?_, ?_, ?_, ?_⟩
  · simp [filterEvents, hlen, filterWithApi]
  · intro hok
    simp [filterEvents, hlen, filterWithApi, hok]
  · intro hok hparse
    simp [filterEvents, hlen, filterWithApi, hok, applyFilterIndices, hparse]
  · simp [filterEvents, hlen, filterWithNano]
  · simp [filterEvents, hlen, filterWithNano]
  · intro hparse
    simp [filterEvents, hlen, filterWithNano, applyFilterIndices, hparse]

/-- C3 amended witness: a thrown fetch sets the flag; a bracket-free
response text does not. -/
theorem C3_filter_fallback_amended_witness :
    filterEvents false [mkEvent "1"] ⟨false, false⟩ (.error "boom") (.ok ()) (.ok "") =
      ([mkEvent "1"], ⟨false, true⟩) ∧
    filterEvents false [mkEvent "1"] ⟨false, false⟩ (.ok ⟨true, "", "zzz"⟩) (.ok ()) (.ok "") =
      ([mkEvent "1"], ⟨false, false⟩) := by
  have h := C3_filter_fallback_amended [mkEvent "1"] ⟨false, false⟩ "boom" ⟨true, "", "zzz"⟩
    (.ok ⟨true, "", "zzz"⟩) (.ok ()) "zzz" (by simp)
  exact ⟨h.1, h.2.2.1 rfl rfl⟩

/-- C4 counterexample: the model may repeat an index, and the code maps
indices without deduplication, so an event can be returned twice —
the output is not a subsequence of the input and the no-repetition
part of the claim fails. -/
theorem C4_duplicate_indices_repeat_events :
    parseFilterIndices "[1,1]" = some [1, 1] ∧
    filterEvents false [mkEvent "1", mkEvent "2"] ⟨false, false⟩ (.ok ⟨true, "", "[1,1]"⟩)
        (.ok ()) (.ok "") = ([mkEvent "1", mkEvent "1"], ⟨false, false⟩) ∧
    ¬ ([mkEvent "1", mkEvent "1"] : List Event).Nodup := by
  refine ⟨rfl, rfl, ?_⟩
  intro h
  exact (List.nodup_cons.mp h).1 (List.mem_singleton.mpr rfl)

/-- C4 amended: `filterEvents` returns at most eight events, each of
which occurs in the input, and an empty input is returned unchanged;
on a successful backend response with parsed indices (remote or
on-device), the output is exactly the events selected by the in-range
model-given indices, in the model-given order, truncated to eight —
out-of-range indices are silently dropped by the range filter, every
surviving index is a safe access, and duplicate indices repeat their
event. -/
theorem C4_filter_selection_amended (usingNano : Bool) (events : List Event)
    (flags : FallbackFlags) (api : Except String ApiResp) (create : Except String Unit)
    (promptRes : Except String String) (resp : ApiResp) (ptext : String) :
    (filterEvents usingNano events flags api create promptRes).1.length ≤
      MAX_MARKETS_TO_DISPLAY ∧
    (∀ e ∈ (filterEvents usingNano events flags api create promptRes).1, e ∈ events) ∧
    (events = [] → filterEvents usingNano events flags api create promptRes =
      ([], flags)) ∧
    (∀ idx, resp.ok = true → parseFilterIndices resp.text = some idx →
      (filterEvents false events flags (.ok resp) create promptRes).1 =
        ((idx.filter (fun i => decide (1 ≤ i ∧ i ≤ events.length))).map
          (fun i => getEv events (i - 1))).take MAX_MARKETS_TO_DISPLAY) ∧
    (∀ idx, parseFilterIndices ptext = some idx →
      (filterEvents true events flags api (.ok ()) (.ok ptext)).1 =
        ((idx.filter (fun i => decide (1 ≤ i ∧ i ≤ events.length))).map
          (fun i => getEv events (i - 1))).take MAX_MARKETS_TO_DISPLAY) := by
  have hempty : ∀ idx : List Nat,
      ((idx.filter (fun i => decide (1 ≤ i ∧ i ≤ ([] : List Event).length))).map
        (fun i => getEv [] (i - 1))).take MAX_MARKETS_TO_DISPLAY = [] := by
    intro idx
    have hf : idx.filter (fun i => decide (1 ≤ i ∧ i ≤ ([] : List Event).length)) = [] := by
      refine List.filter_eq_nil_iff.mpr ?_
      intro i _
      simp
      omega
    rw [hf]
    rfl
  refine ⟨?_, ?_, ?_, ?_, ?_⟩
  · rcases filterEvents_fst_shape usingNano events flags api create promptRes with h | ⟨text, h⟩
    · rw [h]; exact List.length_take_le _ _
    · rw [h]; exact applyFilterIndices_length_le events text
  · intro e he
    rcases filterEvents_fst_shape usingNano events flags api create promptRes with h | ⟨text, h⟩
    · rw [h] at he; exact List.take_subset _ _ he
    · rw [h] at he; exact applyFilterIndices_mem events text e he
  · intro hnil
    subst hnil
    rfl
  · intro idx hok hparse
    by_cases h0 : events = []
    · subst h0
      rw [hempty idx]
      rfl
    · have hlen : (events.length == 0) = false := by
        cases events with
        | nil => exact absurd rfl h0
        | cons a l => simp
      have hfe : (filterEvents false events flags (.ok resp) create promptRes).1 =
          applyFilterIndices events resp.text := by
        simp [filterEvents, hlen, filterWithApi, hok]
      rw [hfe]
      exact applyFilterIndices_selection events resp.text idx hparse
  · intro idx hparse
    by_cases h0 : events = []
    · subst h0
      rw [hempty idx]
      rfl
    · have hlen : (events.length == 0) = false := by
        cases events with
        | nil => exact absurd rfl h0
        | cons a l => simp
      have hfe : (filterEvents true events flags api (.ok ()) (.ok ptext)).1 =
          applyFilterIndices events ptext := by
        simp [filterEvents, hlen, filterWithNano]
      rw [hfe]
      exact applyFilterIndices_selection events ptext idx hparse

/-- C4 amended witness: concrete selection (including a reordered
index list), truncation bound and empty-input runs. -/
theorem C4_filter_selection_amended_witness :
    (filterEvents false [mkEvent "1"] ⟨false, false⟩ (.ok ⟨true, "", "[1]"⟩) (.ok ())
      (.ok "")).1.length ≤ MAX_MARKETS_TO_DISPLAY ∧
    mkEvent "1" ∈ [mkEvent "1"] ∧
    filterEvents false [] ⟨false, false⟩ (.error "x") (.ok ()) (.ok "") =
      ([], ⟨false, false⟩) ∧
    (filterEvents false [mkEvent "1", mkEvent "2"] ⟨false, false⟩ (.ok ⟨true, "", "[2,9,1]"⟩)
      (.ok ()) (.ok "")).1 = [mkEvent "2", mkEvent "1"] := by
  have h := C4_filter_selection_amended false [mkEvent "1"] ⟨false, false⟩
    (.ok ⟨true, "", "[1]"⟩) (.ok ()) (.ok "") ⟨true, "", "[1]"⟩ ""
  have h2 := C4_filter_selection_amended false [] ⟨false, false⟩ (.error "x") (.ok ())
    (.ok "") ⟨true, "", ""⟩ ""
  have h3 := C4_filter_selection_amended false [mkEvent "1", mkEvent "2"] ⟨false, false⟩
    (.ok ⟨true, "", "[2,9,1]"⟩) (.ok ()) (.ok "") ⟨true, "", "[2,9,1]"⟩ ""
  refine ⟨h.1, h.2.1 (mkEvent "1") (List.mem_cons_self _ _), h2.2.2.1 rfl, ?_⟩
  rw [h3.2.2.2.1 [2, 9, 1] rfl rfl]
  rfl

/-- Inserting under a key whose head entry does not match shifts the
insertion into the tail. -/
theorem storageSet_cons_ne {α : Type} (a : String × CacheEntry α)
    (rest : List (String × CacheEntry α)) (k : String) (v : CacheEntry α)
    (h : (a.1 == k) = false) :
    storageSet (a :: rest) k v = a :: storageSet rest k v := by
  unfold storageSet
  by_cases h2 : rest.any (fun p => p.1 == k) = true
  · simp [List.any_cons, h, h2]
    intro hk
    exact absurd hk (by simpa using h)
  · simp [List.any_cons, h, h2]

/-- After `storageSet`, lookup under the same key finds the new entry. -/
theorem find?_storageSet {α : Type} (store : List (String × CacheEntry α)) (k : String)
    (v : CacheEntry α) :
    (storageSet store k v).find? (fun p => p.1 == k) = some (k, v) := by
  induction store with
  | nil => simp [storageSet]
  | cons a rest ih =>
    by_cases h : (a.1 == k) = true
    · have hk : a.1 = k := by simpa using h
      simp [storageSet, List.any_cons, hk, List.find?_cons]
    · have hb : (a.1 == k) = false := by simpa using h
      rw [storageSet_cons_ne a rest k v hb]
      simp [List.find?_cons, hb, ih]

/-- `storageGet` after `storageSet` under the same key. -/
theorem storageGet_set_same {α : Type} (store : List (String × CacheEntry α)) (k : String)
    (v : CacheEntry α) : storageGet (storageSet store k v) k = some v := by
  simp [storageGet, find?_storageSet]

/-- After `storageRemove`, lookup under the removed key fails. -/
theorem storageGet_remove_same {α : Type} (store : List (String × CacheEntry α))
    (k : String) : storageGet (storageRemove store k) k = none := by
  unfold storageGet storageRemove
  rw [List.find?_eq_none.mpr]
  · rfl
  · intro x hx
    have hmem := (List.mem_filter.mp hx).2
    simp at hmem
    simp [hmem]

/-- C6: within the TTL window, `get` after `set` on the same URL
returns exactly the stored bundle and leaves the store unchanged; once
`now > expiresAt`, `get` removes the entry and returns `null`, and a
repeated `get` still returns `null` on the pruned store. -/
theorem C6_cache_ttl_roundtrip (α : Type) (norm : String → String) (ttl now1 now2 : ℤ)
    (store : List (String × CacheEntry α)) (url : String) (data : α) :
    (now2 ≤ now1 + ttl →
      cacheGet norm now2 (cacheSet norm ttl now1 store url data) url =
        (some data, cacheSet norm ttl now1 store url data)) ∧
    (now1 + ttl < now2 →
      cacheGet norm now2 (cacheSet norm ttl now1 store url data) url =
        (none, storageRemove (cacheSet norm ttl now1 store url data) (cacheKeyOf norm url)) ∧
      cacheGet norm now2
          (storageRemove (cacheSet norm ttl now1 store url data) (cacheKeyOf norm url)) url =
        (none,
          storageRemove (cacheSet norm ttl now1 store url data) (cacheKeyOf norm url))) := by
  have hget : storageGet (cacheSet norm ttl now1 store url data) (cacheKeyOf norm url) =
      some { data := data, cachedAt := now1, expiresAt := now1 + ttl, url := norm url } :=
    storageGet_set_same store (cacheKeyOf norm url) _
  constructor
  · intro h
    simp [cacheGet, hget, not_lt.mpr h]
  · intro h
    constructor
    · simp [cacheGet, hget, h]
    · simp [cacheGet, storageGet_remove_same]

/-- C6 witness: a fresh entry read before and after expiry. -/
theorem C6_cache_ttl_roundtrip_witness :
    cacheGet id 500 (cacheSet id 1000 0 ([] : List (String × CacheEntry ℕ)) "u" 42) "u" =
      (some 42, cacheSet id 1000 0 [] "u" 42) ∧
    cacheGet id 2000 (cacheSet id 1000 0 ([] : List (String × CacheEntry ℕ)) "u" 42) "u" =
      (none, storageRemove (cacheSet id 1000 0 [] "u" 42) (cacheKeyOf id "u")) :=
  ⟨(C6_cache_ttl_roundtrip ℕ id 1000 0 500 [] "u" 42).1 (by norm_num),
   ((C6_cache_ttl_roundtrip ℕ id 1000 0 2000 [] "u" 42).2 (by norm_num)).1⟩

/-- `_transformSearchResults` only emits events that kept at least one
market. -/
theorem transformSearchResults_markets_ne_nil (res : List RawEvent) :
    ∀ ev ∈ transformSearchResults res, ev.markets ≠ [] := by
  intro ev hev
  obtain ⟨raw, _, heq⟩ := List.mem_filterMap.mp hev
  by_cases h : (raw.markets.filterMap transformMarket).isEmpty = true
  · simp [transformSearchResults, h] at heq
  · simp only [h, Bool.false_eq_true, if_false] at heq
    have hms : raw.markets.filterMap transformMarket ≠ [] := by
      intro hnil
      rw [hnil] at h
      exact h rfl
    obtain rfl := Option.some.injEq _ _ ▸ heq
    exact hms

/-- `dedupStep` preserves "every accumulated event has a market":
merging appends to an existing nonempty list, insertion adds an event
whose markets were nonempty. -/
theorem foldl_dedupStep_markets_ne_nil (l : List Event) (acc : List Event)
    (hacc : ∀ e ∈ acc, e.markets ≠ []) (hl : ∀ e ∈ l, e.markets ≠ []) :
    ∀ e ∈ l.foldl dedupStep acc, e.markets ≠ [] := by
  induction l generalizing acc with
  | nil => exact hacc
  | cons x xs ih =>
    intro e he
    refine ih (dedupStep acc x) ?_ (fun e' he' => hl e' (List.mem_cons_of_mem _ he')) e he
    intro e' he'
    unfold dedupStep at he'
    by_cases hc : acc.any (fun y => y.eventId == x.eventId) = true
    · rw [if_pos hc] at he'
      obtain ⟨y, hy, hmap⟩ := List.mem_map.mp he'
      by_cases hm : (y.eventId == x.eventId) = true
      · rw [if_pos hm] at hmap
        rw [← hmap]
        exact fun hnil => hacc y hy (List.append_eq_nil.mp hnil).1
      · rw [if_neg hm] at hmap
        rw [← hmap]
        exact hacc y hy
    · rw [if_neg hc] at he'
      rcases List.mem_append.mp he' with hmem | hmem
      · exact hacc e' hmem
      · rw [List.mem_singleton.mp hmem]
        exact hl x (List.mem_cons_self _ _)

/-- C8: every event emitted by the search pipeline — per-keyword
transformed results concatenated and deduplicated — has at least one
market: an event whose markets were all skipped is dropped by the
transform and never resurrected by deduplication. -/
theorem C8_pipeline_events_nonempty (responses : List (List RawEvent)) (ev : Event)
    (hev : ev ∈ searchModel responses) : ev.markets ≠ [] := by
  unfold searchModel deduplicateEvents at hev
  refine foldl_dedupStep_markets_ne_nil _ [] (fun e h => absurd h (List.not_mem_nil e)) ?_
    ev hev
  intro e h
  obtain ⟨l, hl, hel⟩ := List.mem_flatten.mp h
  obtain ⟨res, _, rfl⟩ := List.mem_map.mp hl
  exact transformSearchResults_markets_ne_nil res e hel

/-- C8 witness: the sample payload's transformed event. -/
theorem C8_pipeline_events_nonempty_witness : sampleEvent.markets ≠ [] :=
  C8_pipeline_events_nonempty [[rawSample]] sampleEvent (List.mem_cons_self _ _)

/-- `dedupByIdAux` only consults membership of the seen list. -/
theorem dedupByIdAux_congr (B : List Market) (s1 s2 : List (Option String))
    (h : ∀ x, x ∈ s1 ↔ x ∈ s2) : dedupByIdAux s1 B = dedupByIdAux s2 B := by
  induction B generalizing s1 s2 with
  | nil => rfl
  | cons m rest ih =>
    unfold dedupByIdAux
    by_cases hm : m.id ∈ s1
    · rw [if_pos hm, if_pos ((h m.id).mp hm)]
      exact ih s1 s2 h
    · rw [if_neg hm, if_neg (fun hx => hm ((h m.id).mpr hx))]
      refine congrArg _ (ih (m.id :: s1) (m.id :: s2) ?_)
      intro x
      simp [List.mem_cons, h x]

/-- Seen entries that occur in none of the markets are irrelevant. -/
theorem dedupByIdAux_extra (B : List Market) (seen extra : List (Option String)) :
    (∀ m ∈ B, ¬ m.id ∈ extra) →
      dedupByIdAux (extra ++ seen) B = dedupByIdAux seen B := by
  induction B generalizing seen with
  | nil => intro h; rfl
  | cons m rest ih =>
    intro h
    have hmem : m.id ∈ extra ++ seen ↔ m.id ∈ seen := by
      simp [List.mem_append, h m (List.mem_cons_self m rest)]
    unfold dedupByIdAux
    by_cases hm : m.id ∈ seen
    · rw [if_pos (hmem.mpr hm), if_pos hm]
      exact ih seen (fun m' hm' => h m' (List.mem_cons_of_mem _ hm'))
    · rw [if_neg (fun hx => hm (hmem.mp hx)), if_neg hm]
      refine congrArg _ ?_
      have hc : dedupByIdAux (m.id :: (extra ++ seen)) rest =
          dedupByIdAux (extra ++ (m.id :: seen)) rest := by
        refine dedupByIdAux_congr rest _ _ ?_
        intro x
        simp [List.mem_append, List.mem_cons]
        tauto
      rw [hc]
      exact ih (m.id :: seen) (fun m' hm' => h m' (List.mem_cons_of_mem _ hm'))

/-- On a list with pairwise-distinct ids, keeping the first of each id
is just a filter against the seen list. -/
theorem dedupByIdAux_of_nodup (B : List Market) (seen : List (Option String)) :
    (B.map (fun m => m.id)).Nodup →
      dedupByIdAux seen B = B.filter (fun m => decide (¬ m.id ∈ seen)) := by
  induction B generalizing seen with
  | nil => intro h; rfl
  | cons m rest ih =>
    intro h
    have hcons : (m.id :: rest.map (fun m => m.id)).Nodup := by simpa using h
    have hnd := List.nodup_cons.mp hcons
    unfold dedupByIdAux
    by_cases hm : m.id ∈ seen
    · rw [if_pos hm]
      rw [show ((m :: rest).filter (fun m => decide (¬ m.id ∈ seen)) =
          rest.filter (fun m => decide (¬ m.id ∈ seen))) from by simp [List.filter_cons, hm]]
      exact ih seen hnd.2
    · rw [if_neg hm]
      rw [show ((m :: rest).filter (fun m => decide (¬ m.id ∈ seen)) =
          m :: rest.filter (fun m => decide (¬ m.id ∈ seen))) from by
        simp [List.filter_cons, hm]]
      refine congrArg _ ?_
      have hc : dedupByIdAux (m.id :: seen) rest =
          dedupByIdAux ([m.id] ++ seen) rest := rfl
      rw [hc, dedupByIdAux_extra rest seen [m.id] ?_]
      · exact ih seen hnd.2
      · intro m' hm' hx
        exact hnd.1 (List.mem_map.mpr ⟨m', hm', List.mem_singleton.mp hx⟩)

/-- Ids surviving `dedupByIdAux`: those of the input not in the seen
list. -/
theorem mem_map_id_dedupByIdAux (B : List Market) (seen : List (Option String))
    (x : Option String) :
    x ∈ (dedupByIdAux seen B).map (fun m => m.id) ↔
      x ∈ B.map (fun m => m.id) ∧ ¬ x ∈ seen := by
  induction B generalizing seen with
  | nil => simp [dedupByIdAux]
  | cons m rest ih =>
    unfold dedupByIdAux
    by_cases hm : m.id ∈ seen
    · rw [if_pos hm, ih]
      simp only [List.map_cons, List.mem_cons]
      constructor
      · rintro ⟨h1, h2⟩
        exact ⟨Or.inr h1, h2⟩
      · rintro ⟨h1 | h1, h2⟩
        · exact absurd (h1 ▸ hm) h2
        · exact ⟨h1, h2⟩
    · rw [if_neg hm]
      simp only [List.map_cons, List.mem_cons, ih]
      constructor
      · rintro (rfl | ⟨h1, h2⟩)
        · exact ⟨Or.inl rfl, hm⟩
        · exact ⟨Or.inr h1, fun hx => h2 (Or.inr hx)⟩
      · rintro ⟨h1 | h1, h2⟩
        · exact Or.inl h1
        · by_cases hx : x = m.id
          · exact Or.inl hx
          · refine Or.inr ⟨h1, fun hc => ?_⟩
            rcases hc with hc | hc
            · exact hx hc
            · exact h2 hc

/-- The ids surviving `dedupByIdAux` are pairwise distinct. -/
theorem nodup_map_id_dedupByIdAux (B : List Market) (seen : List (Option String)) :
    ((dedupByIdAux seen B).map (fun m => m.id)).Nodup := by
  induction B generalizing seen with
  | nil => simp [dedupByIdAux]
  | cons m rest ih =>
    unfold dedupByIdAux
    by_cases hm : m.id ∈ seen
    · rw [if_pos hm]
      exact ih seen
    · rw [if_neg hm]
      simp only [List.map_cons]
      rw [List.nodup_cons]
      refine ⟨?_, ih _⟩
      rw [mem_map_id_dedupByIdAux]
      rintro ⟨_, h2⟩
      exact h2 (List.mem_cons_self _ _)

/-- One unfolding step of `dedupByIdAux`. -/
theorem dedupByIdAux_cons (seen : List (Option String)) (m : Market) (rest : List Market) :
    dedupByIdAux seen (m :: rest) =
      if m.id ∈ seen then dedupByIdAux seen rest
      else m :: dedupByIdAux (m.id :: seen) rest := rfl

/-- Splitting `dedupByIdAux` over an append: the right part sees the
left part's ids. -/
theorem dedupByIdAux_append (A B : List Market) (seen : List (Option String)) :
    dedupByIdAux seen (A ++ B) =
      dedupByIdAux seen A ++ dedupByIdAux (A.map (fun m => m.id) ++ seen) B := by
  induction A generalizing seen with
  | nil => simp [dedupByIdAux]
  | cons m rest ih =>
    simp only [List.cons_append, List.map_cons]
    rw [dedupByIdAux_cons, dedupByIdAux_cons]
    by_cases hm : m.id ∈ seen
    · rw [if_pos hm, if_pos hm, ih seen]
      have hcg : dedupByIdAux (List.map (fun m => m.id) rest ++ seen) B =
          dedupByIdAux (m.id :: (List.map (fun m => m.id) rest ++ seen)) B := by
        refine dedupByIdAux_congr B _ _ ?_
        intro x
        constructor
        · intro hx
          exact List.mem_cons.mpr (Or.inr hx)
        · intro hx
          rcases List.mem_cons.mp hx with rfl | hx
          · exact List.mem_append.mpr (Or.inr hm)
          · exact hx
      rw [hcg]
    · rw [if_neg hm, if_neg hm]
      simp only [List.cons_append]
      refine congrArg _ ?_
      rw [ih (m.id :: seen)]
      have hcg : dedupByIdAux (List.map (fun m => m.id) rest ++ (m.id :: seen)) B =
          dedupByIdAux (m.id :: (List.map (fun m => m.id) rest ++ seen)) B := by
        refine dedupByIdAux_congr B _ _ ?_
        intro x
        constructor
        · intro hx
          rcases List.mem_append.mp hx with hx | hx
          · exact List.mem_cons.mpr (Or.inr (List.mem_append.mpr (Or.inl hx)))
          · rcases List.mem_cons.mp hx with rfl | hx
            · exact List.mem_cons.mpr (Or.inl rfl)
            · exact List.mem_cons.mpr (Or.inr (List.mem_append.mpr (Or.inr hx)))
        · intro hx
          rcases List.mem_cons.mp hx with rfl | hx
          · exact List.mem_append.mpr (Or.inr (List.mem_cons.mpr (Or.inl rfl)))
          · rcases List.mem_append.mp hx with hx | hx
            · exact List.mem_append.mpr (Or.inl hx)
            · exact List.mem_append.mpr (Or.inr (List.mem_cons.mpr (Or.inr hx)))
      rw [hcg]

/-- One unfolding step of `firstSeenKeysAux`. -/
theorem firstSeenKeysAux_cons (seen : List String) (k : String) (rest : List String) :
    firstSeenKeysAux seen (k :: rest) =
      if k ∈ seen then firstSeenKeysAux seen rest
      else k :: firstSeenKeysAux (k :: seen) rest := rfl

/-- Keys surviving `firstSeenKeysAux`: those of the input not in the
seen list. -/
theorem mem_firstSeenKeysAux (ks : List String) (seen : List String) (x : String) :
    x ∈ firstSeenKeysAux seen ks ↔ x ∈ ks ∧ ¬ x ∈ seen := by
  induction ks generalizing seen with
  | nil => simp [firstSeenKeysAux]
  | cons k rest ih =>
    rw [firstSeenKeysAux_cons]
    by_cases hk : k ∈ seen
    · rw [if_pos hk, ih]
      simp only [List.mem_cons]
      constructor
      · rintro ⟨h1, h2⟩
        exact ⟨Or.inr h1, h2⟩
      · rintro ⟨h1 | h1, h2⟩
        · exact absurd (h1 ▸ hk) h2
        · exact ⟨h1, h2⟩
    · rw [if_neg hk]
      simp only [List.mem_cons, ih]
      constructor
      · rintro (rfl | ⟨h1, h2⟩)
        · exact ⟨Or.inl rfl, hk⟩
        · exact ⟨Or.inr h1, fun hx => h2 (Or.inr hx)⟩
      · rintro ⟨h1 | h1, h2⟩
        · exact Or.inl h1
        · by_cases hx : x = k
          · exact Or.inl hx
          · refine Or.inr ⟨h1, fun hc => ?_⟩
            rcases hc with hc | hc
            · exact hx hc
            · exact h2 hc

/-- Appending one key: it survives exactly when it is new. -/
theorem firstSeenKeysAux_snoc (ks : List String) (seen : List String) (k : String) :
    firstSeenKeysAux seen (ks ++ [k]) =
      firstSeenKeysAux seen ks ++ (if k ∈ seen ∨ k ∈ ks then [] else [k]) := by
  induction ks generalizing seen with
  | nil =>
    simp only [List.nil_append, firstSeenKeysAux]
    by_cases hk : k ∈ seen
    · rw [if_pos hk, if_pos (Or.inl hk)]
    · rw [if_neg hk, if_neg (by simpa using hk)]
  | cons a rest ih =>
    simp only [List.cons_append]
    rw [firstSeenKeysAux_cons, firstSeenKeysAux_cons]
    by_cases ha : a ∈ seen
    · rw [if_pos ha, if_pos ha, ih seen]
      refine congrArg _ ?_
      by_cases hk : k ∈ seen ∨ k ∈ rest
      · rw [if_pos hk, if_pos ?_]
        rcases hk with hk | hk
        · exact Or.inl hk
        · exact Or.inr (List.mem_cons.mpr (Or.inr hk))
      · rw [if_neg hk, if_neg ?_]
        rintro (h1 | h1)
        · exact hk (Or.inl h1)
        · rcases List.mem_cons.mp h1 with rfl | h1
          · exact hk (Or.inl ha)
          · exact hk (Or.inr h1)
    · rw [if_neg ha, if_neg ha, ih (a :: seen)]
      rw [List.cons_append]
      refine congrArg _ (congrArg _ ?_)
      by_cases hk : k ∈ a :: seen ∨ k ∈ rest
      · rw [if_pos hk, if_pos ?_]
        rcases hk with hk | hk
        · rcases List.mem_cons.mp hk with rfl | hk
          · exact Or.inr (List.mem_cons.mpr (Or.inl rfl))
          · exact Or.inl hk
        · exact Or.inr (List.mem_cons.mpr (Or.inr hk))
      · rw [if_neg hk, if_neg ?_]
        rintro (h1 | h1)
        · exact hk (Or.inl (List.mem_cons.mpr (Or.inr h1)))
        · rcases List.mem_cons.mp h1 with rfl | h1
          · exact hk (Or.inl (List.mem_cons.mpr (Or.inl rfl)))
          · exact hk (Or.inr h1)

/-- `find?` over an append when the left part succeeds. -/
theorem find?_append_some {α : Type} {p : α → Bool} (l1 l2 : List α) (x : α)
    (h : l1.find? p = some x) : (l1 ++ l2).find? p = some x := by
  induction l1 with
  | nil => simp [List.find?] at h
  | cons a rest ih =>
    rw [List.cons_append]
    rw [List.find?_cons] at h ⊢
    by_cases hp : p a = true
    · simpa [hp] using h
    · simp only [hp, Bool.false_eq_true, if_false] at h ⊢
      exact ih h

/-- `find?` over an append when the left part fails. -/
theorem find?_append_none {α : Type} {p : α → Bool} (l1 l2 : List α)
    (h : l1.find? p = none) : (l1 ++ l2).find? p = l2.find? p := by
  induction l1 with
  | nil => simp
  | cons a rest ih =>
    rw [List.cons_append]
    rw [List.find?_cons] at h ⊢
    by_cases hp : p a = true
    · simp [hp] at h
    · simp only [hp, Bool.false_eq_true, if_false] at h ⊢
      exact ih h

/-- An event id present in the list makes `find?` succeed with an event
of that id. -/
theorem find?_eventId_some (all : List Event) (eid : String)
    (h : eid ∈ all.map (fun e => e.eventId)) :
    ∃ first, all.find? (fun e => e.eventId == eid) = some first ∧ first.eventId = eid := by
  cases hf : all.find? (fun e => e.eventId == eid) with
  | some first =>
    exact ⟨first, rfl, by simpa using List.find?_some hf⟩
  | none =>
    obtain ⟨ev, hev, hid⟩ := List.mem_map.mp h
    have := List.find?_eq_none.mp hf ev hev
    simp [hid] at this

/-- An event id absent from the list makes `find?` fail. -/
theorem find?_eventId_none (all : List Event) (eid : String)
    (h : ¬ eid ∈ all.map (fun e => e.eventId)) :
    all.find? (fun e => e.eventId == eid) = none := by
  rw [List.find?_eq_none]
  intro ev hev
  simp only [beq_iff_eq]
  intro heq
  exact h (List.mem_map.mpr ⟨ev, hev, heq⟩)

/-- Appending one event extends exactly its own id's occurrence
markets. -/
theorem occurrenceMarkets_snoc (all : List Event) (e : Event) (eid : String) :
    occurrenceMarkets (all ++ [e]) eid =
      occurrenceMarkets all eid ++
        (if (e.eventId == eid) = true then e.markets else []) := by
  unfold occurrenceMarkets
  rw [List.filter_append, List.map_append, List.flatten_append]
  refine congrArg _ ?_
  by_cases h : (e.eventId == eid) = true
  · simp [List.filter_cons, h]
  · simp [List.filter_cons, h]

/-- Pointwise-equal functions give equal `filterMap`s. -/
theorem filterMap_congr_mem {α β : Type} {f g : α → Option β} (l : List α)
    (h : ∀ x ∈ l, f x = g x) : l.filterMap f = l.filterMap g := by
  induction l with
  | nil => rfl
  | cons a rest ih =>
    rw [List.filterMap_cons, List.filterMap_cons, h a (List.mem_cons_self a rest),
      ih (fun x hx => h x (List.mem_cons_of_mem _ hx))]

/-- Membership test by `any` over ids equals list membership of the
mapped ids. -/
theorem any_id_eq_mem (M : List Market) (m : Market) :
    (M.any (fun xm => xm.id == m.id)) = decide (m.id ∈ M.map (fun x => x.id)) := by
  by_cases h : m.id ∈ M.map (fun x => x.id)
  · obtain ⟨xm, hxm, hid⟩ := List.mem_map.mp h
    rw [List.any_eq_true.mpr ⟨xm, hxm, by simp [hid]⟩]
    simp [h]
  · rw [List.any_eq_false.mpr ?_]
    · simp [h]
    · intro xm hxm
      simp only [beq_iff_eq]
      intro heq
      exact h (List.mem_map.mpr ⟨xm, hxm, heq⟩)

/-- `mergeBody` when the id is found. -/
theorem mergeBody_of_some (all : List Event) (eid : String) (first : Event)
    (h : all.find? (fun e => e.eventId == eid) = some first) :
    mergeBody all eid =
      some { first with markets := dedupById (occurrenceMarkets all eid) } := by
  unfold mergeBody
  rw [h]

/-- `mergeBody` when the id is absent. -/
theorem mergeBody_of_none (all : List Event) (eid : String)
    (h : all.find? (fun e => e.eventId == eid) = none) :
    mergeBody all eid = none := by
  unfold mergeBody
  rw [h]

/-- Every merged event's id comes from the input list. -/
theorem eventId_mem_of_mem_dedupMergeSpec (all : List Event) (y : Event)
    (hy : y ∈ dedupMergeSpec all) : y.eventId ∈ all.map (fun e => e.eventId) := by
  obtain ⟨eid, hkeys, hbody⟩ := List.mem_filterMap.mp hy
  have hmemid : eid ∈ all.map (fun e => e.eventId) :=
    ((mem_firstSeenKeysAux _ _ _).mp hkeys).1
  obtain ⟨first, hf, hfid⟩ := find?_eventId_some all eid hmemid
  rw [mergeBody_of_some all eid first hf] at hbody
  have hyid : y.eventId = eid := by
    cases hbody
    exact hfid
  rw [hyid]
  exact hmemid

/-- Pointwise-equal predicates give equal filters. -/
theorem filter_congr_mem {α : Type} {p q : α → Bool} (l : List α)
    (h : ∀ x ∈ l, p x = q x) : l.filter p = l.filter q := by
  induction l with
  | nil => rfl
  | cons a rest ih =>
    rw [List.filter_cons, List.filter_cons, h a (List.mem_cons_self a rest),
      ih (fun x hx => h x (List.mem_cons_of_mem _ hx))]

/-- Appending an event with a fresh id appends its merged form (which
is itself, its markets having distinct ids). -/
theorem dedupMergeSpec_snoc_new (all : List Event) (e : Event)
    (henodup : (e.markets.map (fun m => m.id)).Nodup)
    (hmem : ¬ e.eventId ∈ all.map (fun ev => ev.eventId)) :
    dedupMergeSpec (all ++ [e]) = dedupMergeSpec all ++ [e] := by
  unfold dedupMergeSpec
  have hkeys : firstSeenKeysAux [] ((all ++ [e]).map (fun ev => ev.eventId)) =
      firstSeenKeysAux [] (all.map (fun ev => ev.eventId)) ++ [e.eventId] := by
    rw [List.map_append]
    simp only [List.map_cons, List.map_nil]
    rw [firstSeenKeysAux_snoc]
    rw [if_neg ?_]
    rintro (h | h)
    · exact List.not_mem_nil _ h
    · exact hmem h
  rw [hkeys, List.filterMap_append]
  have hA : (firstSeenKeysAux [] (all.map (fun ev => ev.eventId))).filterMap
        (mergeBody (all ++ [e])) =
      (firstSeenKeysAux [] (all.map (fun ev => ev.eventId))).filterMap (mergeBody all) := by
    refine filterMap_congr_mem _ ?_
    intro eid hk
    have hid : eid ∈ all.map (fun ev => ev.eventId) :=
      ((mem_firstSeenKeysAux _ _ _).mp hk).1
    obtain ⟨first, hf, hfid⟩ := find?_eventId_some all eid hid
    have hne : (e.eventId == eid) = false := by
      rw [beq_eq_false_iff_ne]
      intro heq
      exact hmem (heq ▸ hid)
    rw [mergeBody_of_some _ _ first (find?_append_some all [e] first hf),
      mergeBody_of_some all eid first hf, occurrenceMarkets_snoc,
      if_neg (by simp [hne]), List.append_nil]
  rw [hA]
  refine congrArg _ ?_
  have hfind : (all ++ [e]).find? (fun ev => ev.eventId == e.eventId) = some e := by
    rw [find?_append_none all [e] (find?_eventId_none all e.eventId hmem)]
    simp [List.find?_cons]
  have hocc : occurrenceMarkets all e.eventId = [] := by
    unfold occurrenceMarkets
    rw [List.filter_eq_nil_iff.mpr ?_]
    · rfl
    · intro ev hev
      simp only [beq_iff_eq]
      intro heq
      exact hmem (List.mem_map.mpr ⟨ev, hev, heq⟩)
  have hdid : dedupById e.markets = e.markets := by
    rw [show dedupById e.markets = dedupByIdAux [] e.markets from rfl,
      dedupByIdAux_of_nodup e.markets [] henodup]
    refine List.filter_eq_self.mpr ?_
    intro m hm
    simp
  have hbody : mergeBody (all ++ [e]) e.eventId = some e := by
    rw [mergeBody_of_some _ _ e hfind, occurrenceMarkets_snoc, hocc,
      if_pos (by simp), List.nil_append, hdid]
  simp [List.filterMap_cons, hbody]

/-- With a fresh id, `dedupStep` appends the event unmerged. -/
theorem dedupStep_spec_new (all : List Event) (e : Event)
    (hmem : ¬ e.eventId ∈ all.map (fun ev => ev.eventId)) :
    dedupStep (dedupMergeSpec all) e = dedupMergeSpec all ++ [e] := by
  unfold dedupStep
  rw [if_neg ?_]
  intro hc
  obtain ⟨y, hy, hid⟩ := List.any_eq_true.mp hc
  rw [beq_iff_eq] at hid
  exact hmem (hid ▸ eventId_mem_of_mem_dedupMergeSpec all y hy)

/-- Appending an occurrence of a known id merges its novel markets into
that id's merged event, exactly as `dedupStep` does. -/
theorem dedupMergeSpec_snoc_old (all : List Event) (e : Event)
    (henodup : (e.markets.map (fun m => m.id)).Nodup)
    (hmem : e.eventId ∈ all.map (fun ev => ev.eventId)) :
    dedupMergeSpec (all ++ [e]) = dedupStep (dedupMergeSpec all) e := by
  have hany : (dedupMergeSpec all).any (fun y => y.eventId == e.eventId) = true := by
    have hk : e.eventId ∈ firstSeenKeysAux [] (all.map (fun ev => ev.eventId)) :=
      (mem_firstSeenKeysAux _ _ _).mpr ⟨hmem, List.not_mem_nil _⟩
    obtain ⟨first, hf, hfid⟩ := find?_eventId_some all e.eventId hmem
    refine List.any_eq_true.mpr
      ⟨{ first with markets := dedupById (occurrenceMarkets all e.eventId) },
        List.mem_filterMap.mpr ⟨e.eventId, hk, mergeBody_of_some all e.eventId first hf⟩,
        ?_⟩
    simp [hfid]
  unfold dedupStep
  rw [if_pos hany]
  have hkeys : firstSeenKeysAux [] ((all ++ [e]).map (fun ev => ev.eventId)) =
      firstSeenKeysAux [] (all.map (fun ev => ev.eventId)) := by
    rw [List.map_append]
    simp only [List.map_cons, List.map_nil]
    rw [firstSeenKeysAux_snoc, if_pos (Or.inr hmem), List.append_nil]
  unfold dedupMergeSpec
  rw [hkeys, List.map_filterMap]
  refine filterMap_congr_mem _ ?_
  intro eid hk
  have hid : eid ∈ all.map (fun ev => ev.eventId) := ((mem_firstSeenKeysAux _ _ _).mp hk).1
  obtain ⟨first, hf, hfid⟩ := find?_eventId_some all eid hid
  rw [mergeBody_of_some _ _ first (find?_append_some all [e] first hf),
    mergeBody_of_some all eid first hf]
  by_cases heid : e.eventId = eid
  · rw [occurrenceMarkets_snoc, if_pos (by simp [heid])]
    simp only [Option.map_some']
    have hmk : dedupById (occurrenceMarkets all eid ++ e.markets) =
        dedupById (occurrenceMarkets all eid) ++
          e.markets.filter (fun m =>
            !((dedupById (occurrenceMarkets all eid)).any (fun xm => xm.id == m.id))) := by
      rw [show dedupById (occurrenceMarkets all eid ++ e.markets) =
          dedupByIdAux [] (occurrenceMarkets all eid ++ e.markets) from rfl,
        dedupByIdAux_append, List.append_nil]
      refine congrArg _ ?_
      rw [dedupByIdAux_of_nodup e.markets _ henodup]
      refine filter_congr_mem _ ?_
      intro m hm
      rw [any_id_eq_mem]
      have hiff : m.id ∈ (dedupById (occurrenceMarkets all eid)).map (fun x => x.id) ↔
          m.id ∈ (occurrenceMarkets all eid).map (fun m => m.id) := by
        have hx := mem_map_id_dedupByIdAux (occurrenceMarkets all eid) [] m.id
        simpa using hx
      rw [decide_not]
      exact congrArg Bool.not (decide_eq_decide.mpr hiff.symm)
    refine congrArg some ?_
    rw [if_pos (show (first.eventId == e.eventId) = true by simp [hfid, heid])]
    rw [hmk]
  · rw [occurrenceMarkets_snoc, if_neg (by simp [heid]), List.append_nil]
    simp only [Option.map_some']
    rw [if_neg ?_]
    intro hc
    have hfe : first.eventId = e.eventId := by simpa using hc
    exact heid (hfe.symm.trans hfid)

/-- One appended occurrence: the merged spec advances exactly by one
`dedupStep`. -/
theorem dedupMergeSpec_snoc (all : List Event) (e : Event)
    (hnodup : ∀ ev ∈ all ++ [e], (ev.markets.map (fun m => m.id)).Nodup) :
    dedupMergeSpec (all ++ [e]) = dedupStep (dedupMergeSpec all) e := by
  have henodup : (e.markets.map (fun m => m.id)).Nodup :=
    hnodup e (List.mem_append.mpr (Or.inr (List.mem_singleton.mpr rfl)))
  by_cases hmem : e.eventId ∈ all.map (fun ev => ev.eventId)
  · exact dedupMergeSpec_snoc_old all e henodup hmem
  · rw [dedupMergeSpec_snoc_new all e henodup hmem, dedupStep_spec_new all e hmem]

/-- `_deduplicateEvents` computes the merged spec, given that each
occurrence's markets carry pairwise-distinct ids. -/
theorem dedup_eq_dedupMergeSpec (all : List Event) :
    (∀ ev ∈ all, (ev.markets.map (fun m => m.id)).Nodup) →
      deduplicateEvents all = dedupMergeSpec all := by
  induction all using List.reverseRecOn with
  | nil => intro _; rfl
  | append_singleton all e ih =>
    intro h
    have hstep : deduplicateEvents (all ++ [e]) = dedupStep (deduplicateEvents all) e := by
      simp [deduplicateEvents, List.foldl_append]
    rw [hstep, ih (fun ev hev => h ev (List.mem_append.mpr (Or.inl hev))),
      ← dedupMergeSpec_snoc all e h]

/-- C7 amended: provided every occurrence's markets list carries
pairwise-distinct market ids, `_deduplicateEvents` merges all
occurrences of an event id into one event — first-seen metadata, the
union of all occurrences' markets deduplicated by market id in
first-seen order — and the result carries no duplicate market ids. -/
theorem C7_dedup_merges_union (all : List Event)
    (hnodup : ∀ ev ∈ all, (ev.markets.map (fun m => m.id)).Nodup) :
    deduplicateEvents all = dedupMergeSpec all ∧
    ∀ ev ∈ deduplicateEvents all, (ev.markets.map (fun m => m.id)).Nodup := by
  have heq := dedup_eq_dedupMergeSpec all hnodup
  refine ⟨heq, ?_⟩
  intro ev hev
  rw [heq] at hev
  obtain ⟨eid, hk, hbody⟩ := List.mem_filterMap.mp hev
  obtain ⟨first, hf, _⟩ :=
    find?_eventId_some all eid ((mem_firstSeenKeysAux _ _ _).mp hk).1
  rw [mergeBody_of_some all eid first hf] at hbody
  cases hbody
  exact nodup_map_id_dedupByIdAux _ _

/-- C7 counterexample: a single per-keyword search result whose raw
event repeats one conditionId across two open, traded markets flows
through the pipeline into a deduplicated event with a duplicate market
id — the merge does not deduplicate within one occurrence. -/
theorem C7_duplicate_ids_within_occurrence :
    ((searchModel [[rawDupIds]]).map (fun e => e.markets.map (fun m => m.id))) =
      [[some "m", some "m"]] ∧
    ¬ ([some "m", some "m"] : List (Option String)).Nodup :=
  ⟨rfl, by decide⟩

/-- C7 witness: two occurrences of one event id with distinct markets
merge as the spec describes. -/
theorem C7_dedup_merges_union_witness :
    deduplicateEvents [evE "E" [evM "a"], evE "E" [evM "b"]] =
      dedupMergeSpec [evE "E" [evM "a"], evE "E" [evM "b"]] :=
  (C7_dedup_merges_union [evE "E" [evM "a"], evE "E" [evM "b"]] (by decide)).1
